import Mathlib

set_option maxHeartbeats 1000000
set_option maxRecDepth 4000

/-! Verification development for the Licenta text-analysis backend.

The Python sources under Backend/ (utils.py, keyword_extractor.py,
triple_extractor.py, text_analyzer.py) are shallowly embedded below:
pure functions become Lean functions, Python dicts become association
lists preserving insertion order, Python sets become membership in lists,
numpy float arrays become exact rational vectors, and the external spaCy
annotation pipeline is modelled by explicit token records given as input.
-/

namespace Licenta

/-! Section: Normalizer (Backend/utils.py)

`Normalizer.norm` lowercases a string and strips combining diacritical
marks after NFD decomposition.  Python's `str.lower` and
`unicodedata.normalize("NFD", ·)` / `unicodedata.category` are external
library calls backed by the Unicode tables; we model them by concrete
tables covering ASCII plus the Romanian diacritic letters the
application processes (both modern comma-below and legacy cedilla
forms).  Every codepoint outside the tables is modelled as caseless,
canonically atomic and not a combining mark, which is faithful for the
character inventory this backend works with. -/

namespace Normalizer

/-- Combining breve U+0306. -/
def markBreve : Char := Char.ofNat 0x306

/-- Combining circumflex accent U+0302. -/
def markCirc : Char := Char.ofNat 0x302

/-- Combining comma below U+0326. -/
def markComma : Char := Char.ofNat 0x326

/-- Combining cedilla U+0327. -/
def markCedilla : Char := Char.ofNat 0x327

/-- Lowercase mapping table: ASCII A-Z plus the Romanian uppercase
diacritic letters (model of Python `str.lower`). -/
def lowerTable : List (Char × Char) :=
  [('A', 'a'), ('B', 'b'), ('C', 'c'), ('D', 'd'), ('E', 'e'), ('F', 'f'),
   ('G', 'g'), ('H', 'h'), ('I', 'i'), ('J', 'j'), ('K', 'k'), ('L', 'l'),
   ('M', 'm'), ('N', 'n'), ('O', 'o'), ('P', 'p'), ('Q', 'q'), ('R', 'r'),
   ('S', 's'), ('T', 't'), ('U', 'u'), ('V', 'v'), ('W', 'w'), ('X', 'x'),
   ('Y', 'y'), ('Z', 'z'),
   ('Ă', 'ă'), ('Â', 'â'), ('Î', 'î'), ('Ș', 'ș'), ('Ț', 'ț'),
   ('Ş', 'ş'), ('Ţ', 'ţ')]

/-- Canonical (NFD) decomposition table for the Romanian diacritic
letters (model of `unicodedata.normalize("NFD", ·)`). -/
def nfdTable : List (Char × List Char) :=
  [('ă', ['a', markBreve]), ('â', ['a', markCirc]), ('î', ['i', markCirc]),
   ('ș', ['s', markComma]), ('ț', ['t', markComma]),
   ('ş', ['s', markCedilla]), ('ţ', ['t', markCedilla]),
   ('Ă', ['A', markBreve]), ('Â', ['A', markCirc]), ('Î', ['I', markCirc]),
   ('Ș', ['S', markComma]), ('Ț', ['T', markComma]),
   ('Ş', ['S', markCedilla]), ('Ţ', ['T', markCedilla])]

/-- Model of `unicodedata.category c == "Mn"`: the combining diacritical
marks block U+0300..U+036F consists exactly of category-Mn codepoints. -/
def isMn (c : Char) : Bool :=
  decide (0x300 ≤ c.toNat) && decide (c.toNat ≤ 0x36F)

/-- Per-character model of Python `str.lower`. -/
def pyLower (c : Char) : Char :=
  match lowerTable.find? (fun p => p.1 == c) with
  | some p => p.2
  | none => c

/-- Per-character canonical decomposition. -/
def nfdChar (c : Char) : List Char :=
  match nfdTable.find? (fun p => p.1 == c) with
  | some p => p.2
  | none => [c]

/-- utils.py lines 6-11: NFD-decompose then drop category-Mn characters
(char-list level). -/
def stripChars (l : List Char) : List Char :=
  (l.bind nfdChar).filter (fun c => !(isMn c))

/-- utils.py `Normalizer.strip_diacritics`. -/
def strip_diacritics (t : String) : String :=
  ⟨stripChars t.data⟩

/-- The norm function at the char-list level: lowercase each char, then strip. -/
def normChars (l : List Char) : List Char :=
  stripChars (l.map pyLower)

/-- utils.py lines 13-15: `Normalizer.norm t = strip_diacritics (t.lower())`. -/
def norm (t : String) : String :=
  ⟨normChars t.data⟩

/-- A character is `good` when it is a fixed point of lowering, is
canonically atomic, and is not a combining mark; such characters pass
through `norm` unchanged. -/
def goodChar (d : Char) : Bool :=
  (pyLower d == d) && (nfdChar d == [d]) && !(isMn d)

lemma pyLower_of_none {c : Char}
    (h : lowerTable.find? (fun p => p.1 == c) = none) : pyLower c = c := by
  unfold pyLower
  rw [h]

lemma pyLower_of_some {c : Char} {p : Char × Char}
    (h : lowerTable.find? (fun p => p.1 == c) = some p) : pyLower c = p.2 := by
  unfold pyLower
  rw [h]

lemma nfdChar_of_none {c : Char}
    (h : nfdTable.find? (fun p => p.1 == c) = none) : nfdChar c = [c] := by
  unfold nfdChar
  rw [h]

lemma nfdChar_of_some {c : Char} {q : Char × List Char}
    (h : nfdTable.find? (fun p => p.1 == c) = some q) : nfdChar c = q.2 := by
  unfold nfdChar
  rw [h]

lemma stripChars_single (c : Char) :
    stripChars [c] = (nfdChar c).filter (fun d => !(isMn d)) := by
  simp [stripChars]

/-- Every character produced by normalizing a character from the
lowercase table is good. -/
lemma lowerTable_good :
    ∀ p ∈ lowerTable, ∀ d ∈ stripChars [p.2], goodChar d = true := by
  decide

/-- Every non-mark character in the decomposition of a character that is
already lowercase (not a lower-table key) is good. -/
lemma nfdTable_good :
    ∀ q ∈ nfdTable, lowerTable.find? (fun p => p.1 == q.1) = none →
      ∀ d ∈ q.2.filter (fun c => !(isMn c)), goodChar d = true := by
  decide

/-- Every character in `stripChars [pyLower c]` is good, for any `c`. -/
lemma goodChar_of_mem (c d : Char) (hd : d ∈ stripChars [pyLower c]) :
    goodChar d = true := by
  rcases hfl : lowerTable.find? (fun p => p.1 == c) with _ | p
  · rw [pyLower_of_none hfl] at hd
    rcases hfn : nfdTable.find? (fun p => p.1 == c) with _ | q
    · rw [stripChars_single, nfdChar_of_none hfn] at hd
      by_cases hm : isMn c = true
      · simp [hm] at hd
      · simp [List.filter] at hd
        rw [Bool.not_eq_true] at hm
        rw [hm] at hd
        simp at hd
        subst hd
        simp [goodChar, pyLower_of_none hfl, nfdChar_of_none hfn, hm]
    · rw [stripChars_single, nfdChar_of_some hfn] at hd
      have hc : q.1 = c := by simpa using List.find?_some hfn
      subst hc
      exact nfdTable_good q (List.mem_of_find?_eq_some hfn) hfl d hd
  · rw [pyLower_of_some hfl] at hd
    exact lowerTable_good p (List.mem_of_find?_eq_some hfl) d hd

lemma stripChars_append (l₁ l₂ : List Char) :
    stripChars (l₁ ++ l₂) = stripChars l₁ ++ stripChars l₂ := by
  simp [stripChars, List.append_bind, List.filter_append]

lemma normChars_cons (c : Char) (l : List Char) :
    normChars (c :: l) = stripChars [pyLower c] ++ normChars l := by
  rw [normChars, List.map_cons, show (pyLower c :: l.map pyLower)
      = [pyLower c] ++ l.map pyLower from rfl, stripChars_append]
  rfl

/-- Every output character of `normChars` is good. -/
lemma goodChar_of_mem_normChars (l : List Char) :
    ∀ d ∈ normChars l, goodChar d = true := by
  induction l with
  | nil => intro d hd; simp [normChars, stripChars] at hd
  | cons c l ih =>
    intro d hd
    rw [normChars_cons] at hd
    rcases List.mem_append.1 hd with h | h
    · exact goodChar_of_mem c d h
    · exact ih d h

/-- Lists of good characters are fixed by normChars: `normChars` fixes lists of good characters. -/
lemma normChars_eq_self (l : List Char) (h : ∀ d ∈ l, goodChar d = true) :
    normChars l = l := by
  induction l with
  | nil => rfl
  | cons c l ih =>
    have hc := h c (List.mem_cons_self c l)
    simp only [goodChar, Bool.and_eq_true, beq_iff_eq, Bool.not_eq_true'] at hc
    rw [normChars_cons, hc.1.1, stripChars_single, hc.1.2]
    have hf : List.filter (fun d => !(isMn d)) [c] = [c] := by simp [hc.2]
    rw [hf, ih (fun d hd => h d (List.mem_cons_of_mem c hd))]
    rfl

end Normalizer

/-- C10: the normalizer is idempotent: `norm (norm s) = norm s` for every
string `s`; normalized forms used as deduplication keys are fixed points
of normalization.  (`norm` lowercases and strips combining marks after
NFD decomposition, per the Unicode model at the top of this namespace.) -/
theorem norm_idempotent (s : String) :
    Normalizer.norm (Normalizer.norm s) = Normalizer.norm s := by
  show (⟨Normalizer.normChars (Normalizer.normChars s.data)⟩ : String)
      = ⟨Normalizer.normChars s.data⟩
  exact congrArg String.mk
    (Normalizer.normChars_eq_self _ (Normalizer.goodChar_of_mem_normChars s.data))

/-! Section: Shared data model and Python-runtime helpers -/

/-- An annotated token, as produced by the external spaCy pipeline
(`token.text`, `token.lemma_`, `token.pos_`, `token.dep_`, `token.head`
as an index into the containing sentence, `token.ent_type_` with `""`
meaning no entity, `token.is_alpha`). -/
structure Token where
  text : String
  lemma_ : String
  pos : String
  dep : String
  head : Nat
  entType : String
  isAlpha : Bool
deriving DecidableEq, Repr

/-- One entry of a returned keyword list.  The Python dicts built at
keyword_extractor.py lines 67 and 142 have exactly the keys "keyword"
and "score"; no entity-type label is ever attached, which we model by a
`label` component that the code always leaves `none` (cf. C5). -/
structure KWEntry where
  keyword : String
  score : ℚ
  label : Option String
deriving DecidableEq, Repr

/-- Python dict lookup on an insertion-ordered association list. -/
def lookupAssoc {α : Type} : List (String × α) → String → Option α
  | [], _ => none
  | (k, v) :: rest, key => if k = key then some v else lookupAssoc rest key

/-- Python dict write `d[key] = v`: replace in place if the key exists,
otherwise append (insertion order preserved). -/
def updateAssoc {α : Type} : List (String × α) → String → α → List (String × α)
  | [], key, v => [(key, v)]
  | (k, w) :: rest, key, v =>
    if k = key then (k, v) :: rest else (k, w) :: updateAssoc rest key v

lemma lookupAssoc_updateAssoc_self {α : Type} (acc : List (String × α))
    (k : String) (v : α) : lookupAssoc (updateAssoc acc k v) k = some v := by
  induction acc with
  | nil => simp [updateAssoc, lookupAssoc]
  | cons kv rest ih =>
    obtain ⟨k', w⟩ := kv
    by_cases h : k' = k
    · subst h
      simp [updateAssoc, lookupAssoc]
    · simp [updateAssoc, lookupAssoc, h, ih]

lemma lookupAssoc_updateAssoc_ne {α : Type} (acc : List (String × α))
    (k key : String) (v : α) (h : k ≠ key) :
    lookupAssoc (updateAssoc acc k v) key = lookupAssoc acc key := by
  induction acc with
  | nil => simp [updateAssoc, lookupAssoc, h]
  | cons kv rest ih =>
    obtain ⟨k', w⟩ := kv
    by_cases h' : k' = k
    · subst h'
      simp [updateAssoc, lookupAssoc, h]
    · simp [updateAssoc, lookupAssoc, h', ih]

/-- First-seen deduplication (Python `dict.fromkeys` / guarded append),
with an accumulator of already-seen keys. -/
def dedupFirstAux {α : Type} [DecidableEq α] (seen : List α) : List α → List α
  | [] => []
  | x :: xs =>
    if x ∈ seen then dedupFirstAux seen xs
    else x :: dedupFirstAux (x :: seen) xs

/-- First-seen deduplication of a list. -/
def dedupFirst {α : Type} [DecidableEq α] (l : List α) : List α :=
  dedupFirstAux [] l

lemma mem_dedupFirstAux {α : Type} [DecidableEq α] {x : α} (l : List α) :
    ∀ seen : List α, x ∈ dedupFirstAux seen l ↔ x ∈ l ∧ x ∉ seen := by
  induction l with
  | nil => intro seen; simp [dedupFirstAux]
  | cons y ys ih =>
    intro seen
    by_cases hy : y ∈ seen
    · rw [dedupFirstAux, if_pos hy, ih]
      constructor
      · exact fun h => ⟨List.mem_cons_of_mem y h.1, h.2⟩
      · rintro ⟨h1, h2⟩
        rcases List.mem_cons.1 h1 with rfl | h1
        · exact absurd hy h2
        · exact ⟨h1, h2⟩
    · rw [dedupFirstAux, if_neg hy]
      constructor
      · intro h
        rcases List.mem_cons.1 h with rfl | h
        · exact ⟨List.mem_cons_self x ys, hy⟩
        · have := (ih (y :: seen)).1 h
          refine ⟨List.mem_cons_of_mem y this.1, fun hx => this.2 (List.mem_cons_of_mem y hx)⟩
      · rintro ⟨h1, h2⟩
        rcases List.mem_cons.1 h1 with rfl | h1
        · exact List.mem_cons_self x _
        · by_cases hxy : x = y
          · subst hxy
            exact List.mem_cons_self x _
          · exact List.mem_cons_of_mem y ((ih (y :: seen)).2
              ⟨h1, by simp [hxy, h2]⟩)

lemma mem_dedupFirst {α : Type} [DecidableEq α] {x : α} {l : List α} :
    x ∈ dedupFirst l ↔ x ∈ l := by
  rw [dedupFirst, mem_dedupFirstAux]
  simp

/-- Stable insertion of one keyed item into a score-descending list
(ties keep the earlier item first, like Python's stable `sorted`). -/
def insertDesc (x : String × ℚ) : List (String × ℚ) → List (String × ℚ)
  | [] => [x]
  | y :: ys => if x.2 ≥ y.2 then x :: y :: ys else y :: insertDesc x ys

/-- Model of `sorted(items, key=lambda kv: kv[1], reverse=True)`:
stable, descending by score. -/
def sortScoresDesc (l : List (String × ℚ)) : List (String × ℚ) :=
  l.foldr insertDesc []

/-- Whitespace test used by Python `str.split()` / `str.strip()`. -/
def isWs (c : Char) : Bool :=
  (c == ' ') || (c == '\t') || (c == '\n') || (c == '\r')

/-- Helper for `pySplit`: split on whitespace runs, dropping empties. -/
def pySplitChars : List Char → List Char → List String
  | [], cur => if cur = [] then [] else [⟨cur⟩]
  | c :: cs, cur =>
    if isWs c then
      if cur = [] then pySplitChars cs [] else ⟨cur⟩ :: pySplitChars cs []
    else pySplitChars cs (cur ++ [c])

/-- Python `s.split()` (no separator argument). -/
def pySplit (s : String) : List String := pySplitChars s.data []

/-- Python `len(s.split())`, the word count used by the subsumption filters. -/
def wordCount (s : String) : ℕ := (pySplit s).length

/-- Python `s.strip()`. -/
def pyStrip (s : String) : String :=
  ⟨((s.data.dropWhile isWs).reverse.dropWhile isWs).reverse⟩

/-- Does the second char list start with the first? -/
def startsWithChars : List Char → List Char → Bool
  | [], _ => true
  | _ :: _, [] => false
  | c :: cs, d :: ds => (c == d) && startsWithChars cs ds

/-- Contiguous-sublist test on char lists. -/
def isSubChars : List Char → List Char → Bool
  | p, [] => p.isEmpty
  | p, d :: ds => startsWithChars p (d :: ds) || isSubChars p ds

/-- Python `p in q` on strings: contiguous substring test. -/
def isSubstrB (p q : String) : Bool := isSubChars p.data q.data

/-- Round-half-to-even on an exact rational (model of Python `round`;
the binary-float representation of scores is idealized as exact). -/
def roundHalfEven (x : ℚ) : ℤ :=
  if x - ⌊x⌋ < 1/2 then ⌊x⌋
  else if 1/2 < x - ⌊x⌋ then ⌊x⌋ + 1
  else if Even ⌊x⌋ then ⌊x⌋ else ⌊x⌋ + 1

/-- Python `round(x, 4)`. -/
def pyRound4 (x : ℚ) : ℚ := (roundHalfEven (x * 10000) : ℚ) / 10000

/-- Any rational in `(0.99995, 1]` rounds to `1` at 4 decimals. -/
lemma pyRound4_eq_one_of {x : ℚ} (h1 : 19999/20000 < x) (h2 : x ≤ 1) :
    pyRound4 x = 1 := by
  rw [pyRound4, roundHalfEven]
  rcases eq_or_lt_of_le h2 with heq | hlt
  · subst heq
    have hf : ⌊(1 : ℚ) * 10000⌋ = (10000 : ℤ) := by
      rw [show ((1 : ℚ) * 10000) = ((10000 : ℤ) : ℚ) by norm_num,
        Int.floor_intCast]
    rw [hf]
    norm_num
  · have hf : ⌊x * 10000⌋ = (9999 : ℤ) := by
      rw [Int.floor_eq_iff]
      constructor
      · push_cast
        linarith
      · push_cast
        linarith
    rw [hf]
    have hr : ¬(x * 10000 - ((9999 : ℤ) : ℚ) < 1/2) := by
      push_cast
      linarith
    have hr2 : (1 : ℚ)/2 < x * 10000 - ((9999 : ℤ) : ℚ) := by
      push_cast
      linarith
    rw [if_neg hr, if_pos hr2]
    push_cast
    norm_num

/-! Section: KeywordExtractor: RAKE (keyword_extractor.py lines 17-70) -/

namespace KeywordExtractor

/-- keyword_extractor.py lines 20-31: cut the token stream into maximal
runs of alphabetic tokens whose normalized lemma is not a stopword
(the accumulator is the current open run). -/
def rakeRuns (stop : List String) : List Token → List String → List (List String)
  | [], current => if current = [] then [] else [current]
  | t :: ts, current =>
    if t.isAlpha = true ∧ Normalizer.norm t.lemma_ ∉ stop then
      rakeRuns stop ts (current ++ [Normalizer.norm t.lemma_])
    else if current = [] then rakeRuns stop ts []
    else current :: rakeRuns stop ts []

/-- keyword_extractor.py line 32: retain only phrases of length 1-3. -/
def rake_phrases (stop : List String) (doc : List Token) : List (List String) :=
  (rakeRuns stop doc []).filter (fun p => 1 ≤ p.length ∧ p.length ≤ 3)

/-- One `Counter`-style update: add `k` to the count of `w`. -/
def bumpCount (m : String → ℕ) (w : String) (k : ℕ) : String → ℕ :=
  fun x => if x = w then m x + k else m x

/-- keyword_extractor.py lines 36-41: `word_freq[word] += 1` per
occurrence of `word` in each phrase. -/
def word_freq (phrases : List (List String)) : String → ℕ :=
  phrases.foldl
    (fun m phrase => phrase.foldl (fun m w => bumpCount m w 1) m)
    (fun _ => 0)

/-- keyword_extractor.py lines 36-42: `word_degree[word] += len(phrase) - 1`
per occurrence of `word` in each phrase. -/
def word_degree (phrases : List (List String)) : String → ℕ :=
  phrases.foldl
    (fun m phrase => phrase.foldl (fun m w => bumpCount m w (phrase.length - 1)) m)
    (fun _ => 0)

/-- keyword_extractor.py line 43: word score `(degree + freq) / freq`
(the Python dict ranges over words of nonzero frequency; on other words
this total model returns `0/0 = 0`). -/
def word_scores (phrases : List (List String)) : String → ℚ :=
  fun w => ((word_degree phrases w : ℚ) + (word_freq phrases w : ℚ))
    / (word_freq phrases w : ℚ)

/-- keyword_extractor.py lines 46-50: phrase-score dict, keyed by the
space-joined phrase, value the sum of the phrase's word scores. -/
def phrase_scores (phrases : List (List String)) (ws : String → ℚ) :
    List (String × ℚ) :=
  phrases.foldl
    (fun acc phrase =>
      updateAssoc acc (String.intercalate " " phrase) ((phrase.map ws).sum))
    []

/-- keyword_extractor.py lines 60-69: walk the sorted phrase list,
skipping phrases whose normalized form was seen, and stop once `top_k`
entries have been emitted (`remaining` counts entries still wanted;
`remaining = 0` means `top_k` was 0 and the Python length check never
fires). -/
def rakeSelect : List (String × ℚ) → List String → ℕ → List KWEntry
  | [], _, _ => []
  | (phrase, score) :: rest, seen, remaining =>
    if Normalizer.norm phrase ∈ seen then rakeSelect rest seen remaining
    else if remaining = 1 then [⟨phrase, pyRound4 score, none⟩]
    else ⟨phrase, pyRound4 score, none⟩ ::
      rakeSelect rest (Normalizer.norm phrase :: seen) (remaining - 1)

/-- keyword_extractor.py lines 53-70: the RAKE ranker.  The `doc`
argument stands for `self.nlp(text)`, the annotation of the input text. -/
def rake (stop : List String) (doc : List Token) (top_k : ℕ) : List KWEntry :=
  let phrases := rake_phrases stop doc
  if phrases = [] then []
  else
    rakeSelect (sortScoresDesc (phrase_scores phrases (word_scores phrases)))
      [] top_k

lemma bump_foldl_phrase (phrase : List String) (m : String → ℕ) (w : String)
    (k : ℕ) :
    (phrase.foldl (fun m ww => bumpCount m ww k) m) w
      = m w + k * phrase.count w := by
  induction phrase generalizing m with
  | nil => simp
  | cons a t ih =>
    rw [List.foldl_cons, ih, List.count_cons]
    by_cases hw : w = a
    · subst hw
      simp [bumpCount]
      ring
    · have : (a == w) = false := by
        simp [Ne.symm hw]
      simp [bumpCount, hw, this]

lemma count_foldl_phrases (phrases : List (List String))
    (f : List String → ℕ) (m : String → ℕ) (w : String) :
    (phrases.foldl
        (fun m phrase => phrase.foldl (fun m ww => bumpCount m ww (f phrase)) m)
        m) w
      = m w + (phrases.map (fun p => f p * p.count w)).sum := by
  induction phrases generalizing m with
  | nil => simp
  | cons p ps ih =>
    rw [List.foldl_cons, ih, bump_foldl_phrase]
    simp
    ring

/-- If every remaining phrase that writes to `key` writes the value `v`,
folding the phrase-score updates preserves `lookupAssoc · key = some v`. -/
lemma phrase_scores_foldl_keep (ws : String → ℚ) (l : List (List String))
    (acc : List (String × ℚ)) (key : String) (v : ℚ)
    (hl : ∀ q ∈ l, String.intercalate " " q = key → (q.map ws).sum = v)
    (hacc : lookupAssoc acc key = some v) :
    lookupAssoc
      (l.foldl
        (fun acc phrase =>
          updateAssoc acc (String.intercalate " " phrase) ((phrase.map ws).sum))
        acc) key = some v := by
  induction l generalizing acc with
  | nil => simpa using hacc
  | cons q rest ih =>
    rw [List.foldl_cons]
    apply ih
    · exact fun r hr hkey => hl r (List.mem_cons_of_mem _ hr) hkey
    · by_cases hq : String.intercalate " " q = key
      · rw [hq, hl q (List.mem_cons_self q rest) hq]
        exact lookupAssoc_updateAssoc_self acc key v
      · rw [lookupAssoc_updateAssoc_ne acc _ key _ hq]
        exact hacc

end KeywordExtractor

/-- The RAKE fixture: the retained phrases are two copies of "a b". -/
def rakeFix : List (List String) := [["a", "b"], ["a", "b"]]

lemma rakeFix_freq_a : KeywordExtractor.word_freq rakeFix "a" = 2 := by decide

lemma rakeFix_freq_b : KeywordExtractor.word_freq rakeFix "b" = 2 := by decide

lemma rakeFix_deg_a : KeywordExtractor.word_degree rakeFix "a" = 2 := by decide

lemma rakeFix_deg_b : KeywordExtractor.word_degree rakeFix "b" = 2 := by decide

lemma rakeFix_ws_a : KeywordExtractor.word_scores rakeFix "a" = (2 + 2) / 2 := by
  unfold KeywordExtractor.word_scores
  rw [rakeFix_deg_a, rakeFix_freq_a]
  norm_num

lemma rakeFix_ws_b : KeywordExtractor.word_scores rakeFix "b" = (2 + 2) / 2 := by
  unfold KeywordExtractor.word_scores
  rw [rakeFix_deg_b, rakeFix_freq_b]
  norm_num

lemma rakeFix_lookup_sum :
    lookupAssoc
      (KeywordExtractor.phrase_scores rakeFix
        (KeywordExtractor.word_scores rakeFix)) "a b"
      = some ((["a", "b"].map (KeywordExtractor.word_scores rakeFix)).sum) := rfl

lemma rakeFix_lookup :
    lookupAssoc
      (KeywordExtractor.phrase_scores rakeFix
        (KeywordExtractor.word_scores rakeFix)) "a b"
      = some (KeywordExtractor.word_scores rakeFix "a"
          + KeywordExtractor.word_scores rakeFix "b") := by
  rw [rakeFix_lookup_sum]
  simp

/-- C7 (counterexample): for the fixture whose retained phrases are two
copies of the two-word phrase "a b", the word scores are
`(2+2)/2 = 2` for both words, but the phrase score of "a b" computed by
`phrase_scores` is `4 = word_score a + word_score b`, not the claimed
`2*word_score a + 2*word_score b = 8`. -/
theorem rake_fixture_counterexample :
    KeywordExtractor.word_scores rakeFix "a" = (2 + 2) / 2
    ∧ KeywordExtractor.word_scores rakeFix "b" = (2 + 2) / 2
    ∧ lookupAssoc
        (KeywordExtractor.phrase_scores rakeFix
          (KeywordExtractor.word_scores rakeFix))
        "a b" = some 4
    ∧ (4 : ℚ) ≠ 2 * ((2 + 2) / 2) + 2 * ((2 + 2) / 2) := by
  refine ⟨rakeFix_ws_a, rakeFix_ws_b, ?_, by norm_num⟩
  rw [rakeFix_lookup, rakeFix_ws_a, rakeFix_ws_b]
  norm_num

/-- C7 (amended): word frequency is the occurrence count across retained
phrases, word degree adds `phrase length - 1` once per occurrence, the
word score is `(degree + frequency) / frequency`, and a phrase's score
sums the scores of its word occurrences: on the fixture of two copies of
"a b" the phrase score is `word_score a + word_score b = 4`, with each
word score `(2+2)/2 = 2`. -/
theorem rake_word_and_phrase_scores (phrases : List (List String)) (w : String) :
    KeywordExtractor.word_freq phrases w = (phrases.map (fun p => p.count w)).sum
    ∧ KeywordExtractor.word_degree phrases w
        = (phrases.map (fun p => (p.length - 1) * p.count w)).sum
    ∧ KeywordExtractor.word_scores phrases w
        = ((KeywordExtractor.word_degree phrases w : ℚ)
            + (KeywordExtractor.word_freq phrases w : ℚ))
          / (KeywordExtractor.word_freq phrases w : ℚ)
    ∧ (∀ phrases' : List (List String), ∀ ws : String → ℚ,
        (∀ p ∈ phrases', ∀ q ∈ phrases',
          String.intercalate " " p = String.intercalate " " q →
            ((p.map ws).sum = (q.map ws).sum)) →
        ∀ p ∈ phrases',
          lookupAssoc (KeywordExtractor.phrase_scores phrases' ws)
            (String.intercalate " " p) = some ((p.map ws).sum))
    ∧ lookupAssoc
        (KeywordExtractor.phrase_scores rakeFix
          (KeywordExtractor.word_scores rakeFix))
        "a b"
      = some (KeywordExtractor.word_scores rakeFix "a"
          + KeywordExtractor.word_scores rakeFix "b")
    ∧ KeywordExtractor.word_scores rakeFix "a" = (2 + 2) / 2 := by
  refine ⟨?_, ?_, rfl, ?_, rakeFix_lookup, rakeFix_ws_a⟩
  · rw [KeywordExtractor.word_freq, KeywordExtractor.count_foldl_phrases]
    simp
  · rw [KeywordExtractor.word_degree, KeywordExtractor.count_foldl_phrases]
    simp
  · intro phrases' ws hcong p hp
    obtain ⟨l1, l2, rfl⟩ := List.append_of_mem hp
    rw [KeywordExtractor.phrase_scores, List.foldl_append, List.foldl_cons]
    apply KeywordExtractor.phrase_scores_foldl_keep
    · intro q hq hkey
      exact hcong q (by simp [hq]) p (by simp) hkey
    · exact lookupAssoc_updateAssoc_self _ _ _

/-- C7 witness: the phrase-score lookup rule of the amended theorem
applied at a concrete one-phrase list and constant word scores. -/
theorem rake_word_and_phrase_scores_witness :
    lookupAssoc (KeywordExtractor.phrase_scores [["x"]] (fun _ => 1)) "x"
      = some ((["x"].map (fun _ => (1 : ℚ))).sum) :=
  (rake_word_and_phrase_scores [["x"]] "x").2.2.2.1 [["x"]] (fun _ => 1)
    (by
      intro p hp q hq _
      rcases List.mem_singleton.1 hp with rfl
      rcases List.mem_singleton.1 hq with rfl
      rfl)
    ["x"] (List.mem_singleton.2 rfl)

/-! Section: TextAnalyzer: subsumption filters (text_analyzer.py lines 102-125) -/

namespace TextAnalyzer

/-- Stable insertion into a word-count-descending list (ties keep the
earlier element first, like Python's stable `sorted`). -/
def insertWcDesc (x : String) : List String → List String
  | [] => [x]
  | y :: ys =>
    if wordCount y ≤ wordCount x then x :: y :: ys else y :: insertWcDesc x ys

/-- Model of `sorted(phrases, key=lambda x: -len(x.split()))`. -/
def sortWcDesc (l : List String) : List String := l.foldr insertWcDesc []

/-- text_analyzer.py lines 104-110: the QA bucket cleanup loop.  A phrase
is kept iff it was not seen before and no already-kept phrase has it as
a strict substring. -/
def qa_dedup_loop : List String → List String → List String → List String
  | [], _, clean => clean
  | p :: rest, seen, clean =>
    if p ∈ seen ∨ (clean.any fun o => decide (p ≠ o) && isSubstrB p o) = true then
      qa_dedup_loop rest seen clean
    else qa_dedup_loop rest (p :: seen) (clean ++ [p])

/-- text_analyzer.py lines 102-111: sort a QA bucket by descending word
count, then run the cleanup loop. -/
def qa_dedup (l : List String) : List String := qa_dedup_loop (sortWcDesc l) [] []

/-- text_analyzer.py lines 120-125: the NER group cleanup loop (same
subsumption check, without the `seen` exact-duplicate set). -/
def ner_dedup_loop : List String → List String → List String
  | [], clean => clean
  | p :: rest, clean =>
    if (clean.any fun o => isSubstrB p o && decide (p ≠ o)) = true then
      ner_dedup_loop rest clean
    else ner_dedup_loop rest (clean ++ [p])

/-- text_analyzer.py lines 119-125: sort an NER group by descending word
count, then run the cleanup loop. -/
def ner_dedup (l : List String) : List String := ner_dedup_loop (sortWcDesc l) []

lemma mem_insertWcDesc {x y : String} {l : List String} :
    y ∈ insertWcDesc x l ↔ y = x ∨ y ∈ l := by
  induction l with
  | nil => simp [insertWcDesc]
  | cons z zs ih =>
    by_cases h : wordCount z ≤ wordCount x
    · simp [insertWcDesc, h]
    · simp [insertWcDesc, h, ih]
      tauto

lemma mem_sortWcDesc {y : String} {l : List String} :
    y ∈ sortWcDesc l ↔ y ∈ l := by
  induction l with
  | nil => simp [sortWcDesc]
  | cons z zs ih =>
    show y ∈ insertWcDesc z (sortWcDesc zs) ↔ _
    rw [mem_insertWcDesc]
    simp [ih]

lemma pairwise_insertWcDesc {x : String} {l : List String}
    (h : l.Pairwise (fun a b => wordCount b ≤ wordCount a)) :
    (insertWcDesc x l).Pairwise (fun a b => wordCount b ≤ wordCount a) := by
  induction l with
  | nil => simp [insertWcDesc]
  | cons y ys ih =>
    rcases List.pairwise_cons.1 h with ⟨hy, hys⟩
    by_cases hc : wordCount y ≤ wordCount x
    · rw [insertWcDesc, if_pos hc]
      refine List.pairwise_cons.2 ⟨?_, h⟩
      intro b hb
      rcases List.mem_cons.1 hb with rfl | hb
      · exact hc
      · exact le_trans (hy b hb) hc
    · rw [insertWcDesc, if_neg hc]
      refine List.pairwise_cons.2 ⟨?_, ih hys⟩
      intro b hb
      rcases mem_insertWcDesc.1 hb with rfl | hb
      · omega
      · exact hy b hb

lemma pairwise_sortWcDesc (l : List String) :
    (sortWcDesc l).Pairwise (fun a b => wordCount b ≤ wordCount a) := by
  induction l with
  | nil => simp [sortWcDesc]
  | cons z zs ih => exact pairwise_insertWcDesc ih

/-- If `p` strictly dominates every other element by word count, it is
the head of the sorted list. -/
lemma sortWcDesc_max_head {l : List String} {p : String} (hp : p ∈ l)
    (hmax : ∀ q ∈ l, q ≠ p → wordCount q < wordCount p) :
    ∃ t, sortWcDesc l = p :: t := by
  have hps : p ∈ sortWcDesc l := mem_sortWcDesc.2 hp
  rcases hs : sortWcDesc l with _ | ⟨h, t⟩
  · rw [hs] at hps
    simp at hps
  · by_cases hhp : h = p
    · subst hhp
      exact ⟨t, rfl⟩
    · exfalso
      have hht : h ∈ l := mem_sortWcDesc.1 (by rw [hs]; exact List.mem_cons_self h t)
      have h1 : wordCount h < wordCount p := hmax h hht hhp
      have hpt : p ∈ t := by
        rw [hs] at hps
        rcases List.mem_cons.1 hps with rfl | hpt
        · exact absurd rfl hhp
        · exact hpt
      have h2 := pairwise_sortWcDesc l
      rw [hs] at h2
      have := (List.pairwise_cons.1 h2).1 p hpt
      omega

lemma qa_dedup_loop_mem_clean (rest : List String) :
    ∀ seen clean p, p ∈ clean → p ∈ qa_dedup_loop rest seen clean := by
  induction rest with
  | nil => intro _ clean p hp; exact hp
  | cons q qs ih =>
    intro seen clean p hp
    rw [qa_dedup_loop]
    split
    · exact ih seen clean p hp
    · exact ih (q :: seen) (clean ++ [q]) p (by simp [hp])

lemma ner_dedup_loop_mem_clean (rest : List String) :
    ∀ clean p, p ∈ clean → p ∈ ner_dedup_loop rest clean := by
  induction rest with
  | nil => intro clean p hp; exact hp
  | cons q qs ih =>
    intro clean p hp
    rw [ner_dedup_loop]
    split
    · exact ih clean p hp
    · exact ih (clean ++ [q]) p (by simp [hp])

lemma qa_dedup_loop_pairwise (rest : List String) :
    ∀ seen clean,
      clean.Pairwise (fun a b => ¬(b ≠ a ∧ isSubstrB b a = true)) →
      (qa_dedup_loop rest seen clean).Pairwise
        (fun a b => ¬(b ≠ a ∧ isSubstrB b a = true)) := by
  induction rest with
  | nil => intro _ clean h; exact h
  | cons p ps ih =>
    intro seen clean hcl
    rw [qa_dedup_loop]
    split
    · exact ih seen clean hcl
    · rename_i hcond
      apply ih
      rw [List.pairwise_append]
      refine ⟨hcl, by simp, ?_⟩
      intro a ha b hb
      rcases List.mem_singleton.1 hb with rfl
      push_neg at hcond
      intro hbad
      exact hcond.2 (List.any_eq_true.2 ⟨a, ha, by simp [hbad.1, hbad.2]⟩)

lemma ner_dedup_loop_pairwise (rest : List String) :
    ∀ clean,
      clean.Pairwise (fun a b => ¬(b ≠ a ∧ isSubstrB b a = true)) →
      (ner_dedup_loop rest clean).Pairwise
        (fun a b => ¬(b ≠ a ∧ isSubstrB b a = true)) := by
  induction rest with
  | nil => intro clean h; exact h
  | cons p ps ih =>
    intro clean hcl
    rw [ner_dedup_loop]
    split
    · exact ih clean hcl
    · rename_i hcond
      apply ih
      rw [List.pairwise_append]
      refine ⟨hcl, by simp, ?_⟩
      intro a ha b hb
      rcases List.mem_singleton.1 hb with rfl
      intro hbad
      exact hcond (List.any_eq_true.2 ⟨a, ha, by simp [hbad.1, hbad.2]⟩)

lemma qa_dedup_max_mem {l : List String} {p : String} (hp : p ∈ l)
    (hmax : ∀ q ∈ l, q ≠ p → wordCount q < wordCount p) :
    p ∈ qa_dedup l := by
  obtain ⟨t, ht⟩ := sortWcDesc_max_head hp hmax
  rw [qa_dedup, ht, qa_dedup_loop]
  have hc : ¬(p ∈ ([] : List String)
      ∨ (([] : List String).any fun o => decide (p ≠ o) && isSubstrB p o) = true) := by
    simp
  rw [if_neg hc]
  exact qa_dedup_loop_mem_clean t _ _ p (by simp)

lemma ner_dedup_max_mem {l : List String} {p : String} (hp : p ∈ l)
    (hmax : ∀ q ∈ l, q ≠ p → wordCount q < wordCount p) :
    p ∈ ner_dedup l := by
  obtain ⟨t, ht⟩ := sortWcDesc_max_head hp hmax
  rw [ner_dedup, ht, ner_dedup_loop]
  have hc : ¬((([] : List String).any fun o => isSubstrB p o && decide (p ≠ o)) = true) := by
    simp
  rw [if_neg hc]
  exact ner_dedup_loop_mem_clean t _ p (by simp)

end TextAnalyzer

/-- C8: the subsumption filter applied to each QA bucket
(`TextAnalyzer.qa_dedup`) and NER group (`TextAnalyzer.ner_dedup`) keeps
a phrase only if no already-kept phrase (processed in descending word
count) has it as a strict substring; a phrase of strictly maximal word
count always survives; and filtering ["ion", "ion popescu", "popescu"]
returns exactly ["ion popescu"]. -/
theorem subsumption_filter_spec :
    (∀ l : List String, (TextAnalyzer.qa_dedup l).Pairwise
        (fun a b => ¬(b ≠ a ∧ isSubstrB b a = true)))
    ∧ (∀ l : List String, (TextAnalyzer.ner_dedup l).Pairwise
        (fun a b => ¬(b ≠ a ∧ isSubstrB b a = true)))
    ∧ (∀ (l : List String) (p : String), p ∈ l →
        (∀ q ∈ l, q ≠ p → wordCount q < wordCount p) →
        p ∈ TextAnalyzer.qa_dedup l ∧ p ∈ TextAnalyzer.ner_dedup l)
    ∧ TextAnalyzer.qa_dedup ["ion", "ion popescu", "popescu"] = ["ion popescu"]
    ∧ TextAnalyzer.ner_dedup ["ion", "ion popescu", "popescu"] = ["ion popescu"] := by
  refine ⟨fun l => TextAnalyzer.qa_dedup_loop_pairwise _ _ _ (by simp),
    fun l => TextAnalyzer.ner_dedup_loop_pairwise _ _ (by simp),
    fun l p hp hmax =>
      ⟨TextAnalyzer.qa_dedup_max_mem hp hmax, TextAnalyzer.ner_dedup_max_mem hp hmax⟩,
    by decide, by decide⟩

/-- C8 witness: the filter applied to the fixture keeps the dominating
phrase "ion popescu". -/
theorem subsumption_filter_spec_witness :
    "ion popescu" ∈ TextAnalyzer.qa_dedup ["ion", "ion popescu", "popescu"] :=
  (subsumption_filter_spec.2.2.1 ["ion", "ion popescu", "popescu"] "ion popescu"
    (by decide) (by decide)).1

/-! Section: TripleExtractor (triple_extractor.py) -/

/-- A graph node, Python dict with key "id". -/
structure GNode where
  id : String
deriving DecidableEq, Repr

/-- A labeled directed edge, Python dict with keys "source", "target",
"label". -/
structure GLink where
  source : String
  target : String
  label : String
deriving DecidableEq, Repr

/-- The knowledge graph returned by `to_graph`. -/
structure KGraph where
  nodes : List GNode
  links : List GLink
deriving DecidableEq, Repr

namespace TripleExtractor

/-- A (subject, predicate, object) triple. -/
abbrev Triple := String × String × String

/-- A default token used for out-of-range head lookups (annotation
pipelines always produce in-range heads; the model must be total). -/
def dummyToken : Token := ⟨"", "", "", "", 0, "", false⟩

/-- The syntactic head of a token within its sentence. -/
def headTok (sent : List Token) (t : Token) : Token :=
  sent.getD t.head dummyToken

/-- Model of `token.children` for the token at index `k` of a sentence: tokens
whose head index is `k`, in document order, excluding the token itself
(spaCy's sentence root is its own head but not its own child). -/
def childrenOf (sent : List Token) (k : ℕ) : List Token :=
  ((sent.enum.filter (fun it => decide (it.2.head = k ∧ it.1 ≠ k))).map (fun it => it.2))

/-- triple_extractor.py line 19: the first subject-like child. -/
def subjectOf (sent : List Token) (k : ℕ) : Option Token :=
  (childrenOf sent k).find? (fun c => c.dep == "nsubj" || c.dep == "nsubjpass")

/-- triple_extractor.py lines 20-23: all object-like children. -/
def objectsOf (sent : List Token) (k : ℕ) : List Token :=
  (childrenOf sent k).filter
    (fun c => decide (c.dep ∈ ["attr", "acomp", "dobj", "obj", "pobj", "obl",
      "xcomp", "ccomp"]))

/-- triple_extractor.py lines 16-46: triples contributed by the token at
index `k` (verb-centered, then amod, then nmod). -/
def tokenTriples (sent : List Token) (k : ℕ) (t : Token) : List Triple :=
  (if t.pos = "VERB" ∨ t.pos = "AUX" then
    match subjectOf sent k with
    | some subj =>
      (objectsOf sent k).map (fun obj =>
        (Normalizer.norm subj.lemma_, Normalizer.norm t.lemma_,
          Normalizer.norm obj.lemma_))
    | none => []
  else [])
  ++ (if t.dep = "amod" ∧ (headTok sent t).pos = "NOUN" then
    [(Normalizer.norm (headTok sent t).lemma_, "amod", Normalizer.norm t.lemma_)]
  else [])
  ++ (if t.dep = "nmod" ∧ (headTok sent t).pos = "NOUN" then
    [(Normalizer.norm (headTok sent t).lemma_, "nmod", Normalizer.norm t.lemma_)]
  else [])

/-- Triples of one sentence, token by token in order. -/
def sentTriples (sent : List Token) : List Triple :=
  sent.enum.bind (fun it => tokenTriples sent it.1 it.2)

/-- triple_extractor.py lines 11-55: extract triples from all sentences
and deduplicate them first-seen. -/
def extract (doc : List (List Token)) : List Triple :=
  dedupFirst (doc.bind sentTriples)

/-- triple_extractor.py lines 58-75: graph projection with the running
set of seen node ids. -/
def to_graph_aux : List Triple → List String → List GNode × List GLink
  | [], _ => ([], [])
  | (s, p, o) :: ts, seen =>
    let ns1 : List GNode := if s ∈ seen then [] else [⟨s⟩]
    let seen1 := if s ∈ seen then seen else s :: seen
    let ns2 : List GNode := if o ∈ seen1 then [] else [⟨o⟩]
    let seen2 := if o ∈ seen1 then seen1 else o :: seen1
    let rest := to_graph_aux ts seen2
    (ns1 ++ ns2 ++ rest.1, ⟨s, o, p⟩ :: rest.2)

/-- triple_extractor.py `to_graph`. -/
def to_graph (ts : List Triple) : KGraph :=
  ⟨(to_graph_aux ts []).1, (to_graph_aux ts []).2⟩

lemma to_graph_aux_links (ts : List Triple) :
    ∀ seen, (to_graph_aux ts seen).2
      = ts.map (fun t => GLink.mk t.1 t.2.2 t.2.1) := by
  induction ts with
  | nil => intro seen; rfl
  | cons t ts ih =>
    intro seen
    obtain ⟨s, p, o⟩ := t
    simp only [to_graph_aux, ih, List.map_cons]

lemma to_graph_aux_nodes (ts : List Triple) :
    ∀ seen, (to_graph_aux ts seen).1.map (fun n => n.id)
      = dedupFirstAux seen (ts.bind (fun t => [t.1, t.2.2])) := by
  induction ts with
  | nil => intro seen; rfl
  | cons t ts ih =>
    intro seen
    obtain ⟨s, p, o⟩ := t
    simp only [List.cons_bind]
    show _ = dedupFirstAux seen (s :: o :: ts.bind (fun t => [t.1, t.2.2]))
    by_cases hs : s ∈ seen
    · rw [dedupFirstAux, if_pos hs]
      by_cases ho : o ∈ seen
      · rw [dedupFirstAux, if_pos ho]
        simp only [to_graph_aux, if_pos hs, if_pos ho, List.nil_append]
        exact ih seen
      · rw [dedupFirstAux, if_neg ho]
        simp only [to_graph_aux, if_pos hs, if_neg ho, List.nil_append,
          List.singleton_append, List.map_cons]
        rw [ih (o :: seen)]
    · rw [dedupFirstAux, if_neg hs]
      by_cases ho : o ∈ s :: seen
      · rw [dedupFirstAux, if_pos ho]
        simp only [to_graph_aux, if_neg hs, if_pos ho, List.nil_append,
          List.singleton_append, List.map_cons]
        rw [ih (s :: seen)]
      · rw [dedupFirstAux, if_neg ho]
        simp only [to_graph_aux, if_neg hs, if_neg ho, List.map_cons,
          List.singleton_append, List.cons_append, List.nil_append]
        rw [ih (o :: s :: seen)]

end TripleExtractor

/-- C9: for every triple list, the graph projection produces node ids
that are exactly the distinct subjects and objects in first-seen order,
one link per triple (source = subject, target = object, label =
predicate) in order, every link endpoint occurs among the node ids, and
every node is an endpoint of at least one link. -/
theorem to_graph_spec (ts : List TripleExtractor.Triple) :
    (TripleExtractor.to_graph ts).nodes.map (fun n => n.id)
        = dedupFirst (ts.bind (fun t => [t.1, t.2.2]))
    ∧ (TripleExtractor.to_graph ts).links
        = ts.map (fun t => GLink.mk t.1 t.2.2 t.2.1)
    ∧ (∀ lnk ∈ (TripleExtractor.to_graph ts).links,
        lnk.source ∈ (TripleExtractor.to_graph ts).nodes.map (fun n => n.id)
        ∧ lnk.target ∈ (TripleExtractor.to_graph ts).nodes.map (fun n => n.id))
    ∧ (∀ n ∈ (TripleExtractor.to_graph ts).nodes,
        ∃ lnk ∈ (TripleExtractor.to_graph ts).links,
          lnk.source = n.id ∨ lnk.target = n.id) := by
  have hn : (TripleExtractor.to_graph ts).nodes.map (fun n => n.id)
      = dedupFirst (ts.bind (fun t => [t.1, t.2.2])) :=
    TripleExtractor.to_graph_aux_nodes ts []
  have hl : (TripleExtractor.to_graph ts).links
      = ts.map (fun t => GLink.mk t.1 t.2.2 t.2.1) :=
    TripleExtractor.to_graph_aux_links ts []
  refine ⟨hn, hl, ?_, ?_⟩
  · intro lnk hmem
    rw [hl] at hmem
    obtain ⟨t, ht, rfl⟩ := List.mem_map.1 hmem
    constructor
    · rw [hn]
      exact mem_dedupFirst.2 (List.mem_bind.2 ⟨t, ht, by simp⟩)
    · rw [hn]
      exact mem_dedupFirst.2 (List.mem_bind.2 ⟨t, ht, by simp⟩)
  · intro n hmem
    have hid : n.id ∈ (TripleExtractor.to_graph ts).nodes.map (fun n => n.id) :=
      List.mem_map_of_mem _ hmem
    rw [hn] at hid
    obtain ⟨t, ht, hin⟩ := List.mem_bind.1 (mem_dedupFirst.1 hid)
    rcases List.mem_cons.1 hin with h1 | h1
    · exact ⟨GLink.mk t.1 t.2.2 t.2.1,
        by rw [hl]; exact List.mem_map_of_mem _ ht, Or.inl h1.symm⟩
    · have h2 := List.mem_singleton.1 h1
      exact ⟨GLink.mk t.1 t.2.2 t.2.1,
        by rw [hl]; exact List.mem_map_of_mem _ ht, Or.inr h2.symm⟩

/-- C9 witness: for the one-triple list ("ion", "manca", "mar"), the
projected link is present and its endpoints appear among the node ids. -/
theorem to_graph_spec_witness :
    (GLink.mk "ion" "mar" "manca").source
      ∈ (TripleExtractor.to_graph [("ion", "manca", "mar")]).nodes.map
          (fun n => n.id) :=
  ((to_graph_spec [("ion", "manca", "mar")]).2.2.1
    (GLink.mk "ion" "mar" "manca") (by decide)).1

/-! Section: TextAnalyzer: the QA "what" bucket (text_analyzer.py lines 79-82) -/

namespace TextAnalyzer

/-- text_analyzer.py lines 80-82: `if pred and obj and pred not in
set(amod, nmod): qa["what"].append(f"pred obj")`. -/
def what_bucket : List TripleExtractor.Triple → List String
  | [] => []
  | (_, p, o) :: ts =>
    if p ≠ "" ∧ o ≠ "" ∧ p ∉ (["amod", "nmod"] : List String) then
      (p ++ " " ++ o) :: what_bucket ts
    else what_bucket ts

/-- The "what" contribution exactly as the claim words it: every triple
with non-empty predicate and non-empty object contributes, with no
further exclusion.  Modelled from the claim, for comparison with
`what_bucket`. -/
def what_bucket_claimed (ts : List TripleExtractor.Triple) : List String :=
  (ts.filter (fun t => decide (t.2.1 ≠ "" ∧ t.2.2 ≠ ""))).map
    (fun t => t.2.1 ++ " " ++ t.2.2)

end TextAnalyzer

/-- A one-sentence document with a single adjectival-modifier arc
("masina" NOUN ← amod ← "rosie" ADJ). -/
def amodDoc : List (List Token) :=
  [[⟨"masina", "masina", "NOUN", "ROOT", 0, "", true⟩,
    ⟨"rosie", "rosie", "ADJ", "amod", 0, "", true⟩]]

/-- C6 (counterexample): the amod document yields the extracted triple
("masina", "amod", "rosie") with non-empty predicate and object, yet the
code's what-bucket is empty for it, while the claimed rule would
contribute "amod rosie". -/
theorem what_bucket_counterexample :
    TripleExtractor.extract amodDoc = [("masina", "amod", "rosie")]
    ∧ TextAnalyzer.what_bucket (TripleExtractor.extract amodDoc) = []
    ∧ TextAnalyzer.what_bucket_claimed (TripleExtractor.extract amodDoc)
        = ["amod rosie"] := by
  refine ⟨by decide, by decide, by decide⟩

/-- C6 (amended): every triple with non-empty predicate and non-empty
object whose predicate is neither "amod" nor "nmod" contributes
"<predicate> <object>" to the what bucket, in order; triples with
predicate "amod" or "nmod" are skipped. -/
theorem what_bucket_spec (ts : List TripleExtractor.Triple) :
    TextAnalyzer.what_bucket ts
      = (ts.filter (fun t => decide (t.2.1 ≠ "" ∧ t.2.2 ≠ ""
          ∧ t.2.1 ∉ (["amod", "nmod"] : List String)))).map
        (fun t => t.2.1 ++ " " ++ t.2.2) := by
  induction ts with
  | nil => rfl
  | cons t ts ih =>
    obtain ⟨s, p, o⟩ := t
    by_cases h : p ≠ "" ∧ o ≠ "" ∧ p ∉ (["amod", "nmod"] : List String)
    · simp only [TextAnalyzer.what_bucket, if_pos h, List.filter_cons, ih]
      rw [if_pos (by simpa using h)]
      rfl
    · simp only [TextAnalyzer.what_bucket, if_neg h, List.filter_cons, ih]
      rw [if_neg (by simpa using h)]

/-! Section: KeywordExtractor: TextRank (keyword_extractor.py lines 72-146)

The score vector is an exact rational vector (numpy float32 arithmetic
idealized as exact).  The random initial vector `np.random.rand(n)`
(line 109) is exposed as an explicit input `s0`.  In
`np.divide(adjacency, row_sums, where=row_sums != 0)` (line 108) the
entries of rows with zero total are left to the preallocated output
buffer; we model the zero-filled case. -/

namespace KeywordExtractor

/-- keyword_extractor.py lines 84-89: candidate lemmas (nouns and
adjectives, alphabetic, normalized lemma not a stopword), in order. -/
def candidate_lemmas (stop : List String) (doc : List Token) : List String :=
  doc.filterMap (fun t =>
    if (t.pos = "NOUN" ∨ t.pos = "ADJ") ∧ t.isAlpha = true
        ∧ Normalizer.norm t.lemma_ ∉ stop then
      some (Normalizer.norm t.lemma_)
    else none)

/-- line 94: the vocabulary, first-seen order. -/
def vocab_list (cands : List String) : List String := dedupFirst cands

/-- line 95: `word_to_index`. -/
def word_to_index (cands : List String) (w : String) : ℕ :=
  (vocab_list cands).indexOf w

/-- lines 98-99: the loop's ordered pairs `(i, j)` with
`j in range(i+1, min(i+window, len))`. -/
def pair_list (len window : ℕ) : List (ℕ × ℕ) :=
  (List.range len).bind (fun i =>
    (List.range' (i + 1) (min (i + window) len - (i + 1))).map (fun j => (i, j)))

/-- One `adjacency_matrix[a, b] += 1` update. -/
def bumpQ (A : ℕ → ℕ → ℚ) (a b : ℕ) : ℕ → ℕ → ℚ :=
  fun i j => if i = a ∧ j = b then A i j + 1 else A i j

/-- lines 96-104: the co-occurrence matrix built from the candidate
sequence (both directions bumped, self-pairs skipped). -/
def adjacency (cands : List String) (window : ℕ) : ℕ → ℕ → ℚ :=
  (pair_list cands.length window).foldl
    (fun A ij =>
      let a := word_to_index cands (cands.getD ij.1 "")
      let b := word_to_index cands (cands.getD ij.2 "")
      if a = b then A else bumpQ (bumpQ A a b) b a)
    (fun _ _ => 0)

/-- line 107: row sums over the `n`-element vocabulary. -/
def rowSum (n : ℕ) (A : ℕ → ℕ → ℚ) (i : ℕ) : ℚ := ∑ j : Fin n, A i j.val

/-- line 108: row-normalized transition matrix; zero rows stay zero
(see the namespace comment). -/
def transition (n : ℕ) (A : ℕ → ℕ → ℚ) (i j : ℕ) : ℚ :=
  if rowSum n A i = 0 then 0 else A i j / rowSum n A i

/-- line 113: one update `scores = (1 - d) + d * transitionᵀ @ prev`
with the default damping `d = 0.85 = 17/20`. -/
def pr_step (n : ℕ) (T : ℕ → ℕ → ℚ) (s : Fin n → ℚ) : Fin n → ℚ :=
  fun i => 3 / 20 + 17 / 20 * ∑ j : Fin n, T j.val i.val * s j

/-- The iterates of the loop at lines 111-115: `pr_iter k` is the score
vector after `k` updates. -/
def pr_iter (n : ℕ) (T : ℕ → ℕ → ℚ) (s0 : Fin n → ℚ) : ℕ → Fin n → ℚ
  | 0 => s0
  | k + 1 => pr_step n T (pr_iter n T s0 k)

/-- line 114: `np.linalg.norm(x - y, 1)`. -/
def l1dist (n : ℕ) (x y : Fin n → ℚ) : ℚ := ∑ i : Fin n, |x i - y i|

/-- The stopping test of loop pass `m + 1` (`m ≥ 0`): the L1 distance of
iterates `m + 1` and `m` is below the default tolerance `1e-5`. -/
def pr_conv (n : ℕ) (T : ℕ → ℕ → ℚ) (s0 : Fin n → ℚ) (m : ℕ) : Prop :=
  l1dist n (pr_iter n T s0 (m + 1)) (pr_iter n T s0 m) < 1 / 100000

instance pr_conv_decidable (n : ℕ) (T : ℕ → ℕ → ℚ) (s0 : Fin n → ℚ) :
    DecidablePred (pr_conv n T s0) := fun m => by
  unfold pr_conv
  infer_instance

/-- The loop, as the claim describes it, would stop within `cap` passes. -/
def pr_stops_within (n : ℕ) (T : ℕ → ℕ → ℚ) (s0 : Fin n → ℚ) (cap : ℕ) : Prop :=
  ∃ m < cap, pr_conv n T s0 m

lemma l1dist_nonneg (n : ℕ) (x y : Fin n → ℚ) : 0 ≤ l1dist n x y :=
  Finset.sum_nonneg fun i _ => abs_nonneg _

/-- Contraction of one update step: the damped column action shrinks the
L1 distance by the damping factor whenever `T` is entrywise nonnegative
with row sums at most 1. -/
lemma l1dist_pr_step (n : ℕ) (T : ℕ → ℕ → ℚ) (x y : Fin n → ℚ)
    (hTnn : ∀ i j, 0 ≤ T i j)
    (hrow : ∀ i : Fin n, rowSum n T i.val ≤ 1) :
    l1dist n (pr_step n T x) (pr_step n T y) ≤ 17 / 20 * l1dist n x y := by
  have hstep : ∀ i : Fin n,
      pr_step n T x i - pr_step n T y i
        = 17 / 20 * ∑ j : Fin n, T j.val i.val * (x j - y j) := by
    intro i
    simp only [pr_step]
    rw [show (∑ j : Fin n, T j.val i.val * (x j - y j))
        = ∑ j : Fin n, (T j.val i.val * x j - T j.val i.val * y j) from
      Finset.sum_congr rfl (fun j _ => by ring), Finset.sum_sub_distrib]
    ring
  calc l1dist n (pr_step n T x) (pr_step n T y)
      = ∑ i : Fin n, |17 / 20 * ∑ j : Fin n, T j.val i.val * (x j - y j)| := by
        apply Finset.sum_congr rfl
        intro i _
        rw [hstep i]
    _ = 17 / 20 * ∑ i : Fin n, |∑ j : Fin n, T j.val i.val * (x j - y j)| := by
        rw [Finset.mul_sum]
        apply Finset.sum_congr rfl
        intro i _
        rw [abs_mul]
        norm_num
    _ ≤ 17 / 20 * ∑ i : Fin n, ∑ j : Fin n, T j.val i.val * |x j - y j| := by
        apply mul_le_mul_of_nonneg_left _ (by norm_num)
        apply Finset.sum_le_sum
        intro i _
        calc |∑ j : Fin n, T j.val i.val * (x j - y j)|
            ≤ ∑ j : Fin n, |T j.val i.val * (x j - y j)| :=
              Finset.abs_sum_le_sum_abs _ _
          _ = ∑ j : Fin n, T j.val i.val * |x j - y j| := by
              apply Finset.sum_congr rfl
              intro j _
              rw [abs_mul, abs_of_nonneg (hTnn _ _)]
    _ = 17 / 20 * ∑ j : Fin n, |x j - y j| * rowSum n T j.val := by
        congr 1
        rw [Finset.sum_comm]
        apply Finset.sum_congr rfl
        intro j _
        rw [rowSum, Finset.mul_sum]
        apply Finset.sum_congr rfl
        intro i _
        ring
    _ ≤ 17 / 20 * ∑ j : Fin n, |x j - y j| := by
        apply mul_le_mul_of_nonneg_left _ (by norm_num)
        apply Finset.sum_le_sum
        intro j _
        calc |x j - y j| * rowSum n T j.val ≤ |x j - y j| * 1 :=
              mul_le_mul_of_nonneg_left (hrow j) (abs_nonneg _)
          _ = |x j - y j| := mul_one _
    _ = 17 / 20 * l1dist n x y := rfl

/-- Geometric decay of the successive-difference L1 norm. -/
lemma l1dist_iter_le (n : ℕ) (T : ℕ → ℕ → ℚ) (s0 : Fin n → ℚ)
    (hTnn : ∀ i j, 0 ≤ T i j)
    (hrow : ∀ i : Fin n, rowSum n T i.val ≤ 1) (m : ℕ) :
    l1dist n (pr_iter n T s0 (m + 1)) (pr_iter n T s0 m)
      ≤ (17 / 20) ^ m * l1dist n (pr_iter n T s0 1) (pr_iter n T s0 0) := by
  induction m with
  | zero => simp
  | succ k ih =>
    calc l1dist n (pr_iter n T s0 (k + 2)) (pr_iter n T s0 (k + 1))
        ≤ 17 / 20 * l1dist n (pr_iter n T s0 (k + 1)) (pr_iter n T s0 k) :=
          l1dist_pr_step n T _ _ hTnn hrow
      _ ≤ 17 / 20 * ((17 / 20) ^ k
            * l1dist n (pr_iter n T s0 1) (pr_iter n T s0 0)) :=
          mul_le_mul_of_nonneg_left ih (by norm_num)
      _ = (17 / 20) ^ (k + 1)
            * l1dist n (pr_iter n T s0 1) (pr_iter n T s0 0) := by ring

lemma transition_nonneg (n : ℕ) (A : ℕ → ℕ → ℚ) (hA : ∀ i j, 0 ≤ A i j)
    (i j : ℕ) : 0 ≤ transition n A i j := by
  rw [transition]
  split
  · exact le_refl 0
  · rename_i h
    have hrs : 0 ≤ rowSum n A i := Finset.sum_nonneg fun k _ => hA i k.val
    exact div_nonneg (hA i j) hrs

lemma transition_rowSum_le_one (n : ℕ) (A : ℕ → ℕ → ℚ)
    (hA : ∀ i j, 0 ≤ A i j) (i : ℕ) : rowSum n (transition n A) i ≤ 1 := by
  by_cases h : rowSum n A i = 0
  · rw [rowSum]
    simp only [transition, h, if_pos]
    simp
  · have : rowSum n (transition n A) i = 1 := by
      rw [rowSum]
      have : ∀ j : Fin n, transition n A i j.val = A i j.val / rowSum n A i := by
        intro j
        rw [transition, if_neg h]
      rw [Finset.sum_congr rfl (fun j _ => this j), ← Finset.sum_div]
      exact div_self h
    rw [this]

/-- Termination of the `while True` loop at keyword_extractor.py lines
111-115, in exact arithmetic: the successive-difference L1 norm
contracts by the damping factor each pass, so some pass meets the
tolerance. -/
lemma pr_terminates (n : ℕ) (A : ℕ → ℕ → ℚ) (s0 : Fin n → ℚ)
    (hA : ∀ i j, 0 ≤ A i j) :
    ∃ m, pr_conv n (transition n A) s0 m := by
  set T := transition n A with hT
  have hTnn : ∀ i j, 0 ≤ T i j := transition_nonneg n A hA
  have hrow : ∀ i : Fin n, rowSum n T i.val ≤ 1 :=
    fun i => transition_rowSum_le_one n A hA i.val
  set D := l1dist n (pr_iter n T s0 1) (pr_iter n T s0 0) with hD
  have hDnn : 0 ≤ D := l1dist_nonneg n _ _
  rcases eq_or_lt_of_le hDnn with hD0 | hDpos
  · refine ⟨0, ?_⟩
    rw [pr_conv]
    calc l1dist n (pr_iter n T s0 1) (pr_iter n T s0 0) = D := rfl
      _ = 0 := hD0.symm
      _ < 1 / 100000 := by norm_num
  · obtain ⟨m, hm⟩ := exists_pow_lt_of_lt_one
      (show (0 : ℚ) < (1 / 100000) / D by positivity)
      (show (17 : ℚ) / 20 < 1 by norm_num)
    refine ⟨m, ?_⟩
    rw [pr_conv]
    calc l1dist n (pr_iter n T s0 (m + 1)) (pr_iter n T s0 m)
        ≤ (17 / 20) ^ m * D := l1dist_iter_le n T s0 hTnn hrow m
      _ < ((1 / 100000) / D) * D := by
          exact mul_lt_mul_of_pos_right hm hDpos
      _ = 1 / 100000 := div_mul_cancel₀ _ (ne_of_gt hDpos)

lemma adjacency_foldl_nonneg (cands : List String) (ps : List (ℕ × ℕ)) :
    ∀ A : ℕ → ℕ → ℚ, (∀ i j, 0 ≤ A i j) → ∀ i j,
      0 ≤ (ps.foldl (fun A ij =>
        let a := word_to_index cands (cands.getD ij.1 "")
        let b := word_to_index cands (cands.getD ij.2 "")
        if a = b then A else bumpQ (bumpQ A a b) b a) A) i j := by
  induction ps with
  | nil => intro A hA i j; exact hA i j
  | cons ij ps ih =>
    intro A hA i j
    rw [List.foldl_cons]
    apply ih
    intro i' j'
    by_cases hab : word_to_index cands (cands.getD ij.1 "")
        = word_to_index cands (cands.getD ij.2 "")
    · simp only [if_pos hab]
      exact hA i' j'
    · simp only [if_neg hab, bumpQ]
      split
      · split
        · linarith [hA i' j']
        · linarith [hA i' j']
      · split
        · linarith [hA i' j']
        · exact hA i' j'

lemma adjacency_nonneg (cands : List String) (window : ℕ) :
    ∀ i j, 0 ≤ adjacency cands window i j :=
  adjacency_foldl_nonneg cands (pair_list cands.length window)
    (fun _ _ => 0) (fun _ _ => le_refl 0)

end KeywordExtractor

/-! Section: The full ranker -/

namespace KeywordExtractor

/-- keyword_extractor.py lines 119-137: combine adjacent NOUN/ADJ words
into two-word phrases where possible, otherwise emit single words, into
the `phrase_scores` dict (the accumulator). -/
def combine (ws : List (String × ℚ)) : List Token → List (String × ℚ) →
    List (String × ℚ)
  | [], acc => acc
  | [t], acc =>
    if ((t.pos = "NOUN" ∨ t.pos = "ADJ") ∧ t.isAlpha = true)
        ∧ (lookupAssoc ws (Normalizer.norm t.lemma_)).isSome = true then
      updateAssoc acc (Normalizer.norm t.lemma_)
        ((lookupAssoc ws (Normalizer.norm t.lemma_)).getD 0)
    else acc
  | t :: t2 :: rest, acc =>
    if ((t.pos = "NOUN" ∨ t.pos = "ADJ") ∧ t.isAlpha = true)
        ∧ (lookupAssoc ws (Normalizer.norm t.lemma_)).isSome = true then
      if ((t2.pos = "NOUN" ∨ t2.pos = "ADJ") ∧ t2.isAlpha = true)
          ∧ (lookupAssoc ws (Normalizer.norm t2.lemma_)).isSome = true then
        combine ws rest
          (updateAssoc acc
            (Normalizer.norm t.lemma_ ++ " " ++ Normalizer.norm t2.lemma_)
            ((lookupAssoc ws (Normalizer.norm t.lemma_)).getD 0
              + (lookupAssoc ws (Normalizer.norm t2.lemma_)).getD 0))
      else
        combine ws (t2 :: rest)
          (updateAssoc acc (Normalizer.norm t.lemma_)
            ((lookupAssoc ws (Normalizer.norm t.lemma_)).getD 0))
    else combine ws (t2 :: rest) acc

/-- keyword_extractor.py lines 74-146: the full graph-based ranker,
producing the keyword list of line 141-144 (line 91 returns the empty
list when there are no candidates).  The loop runs to its first
convergent pass, which exists by `pr_terminates`. -/
def textrankList (stop : List String) (doc : List Token) (window top_k : ℕ)
    (s0 : ℕ → ℚ) : List KWEntry :=
  let cands := candidate_lemmas stop doc
  if cands = [] then []
  else
    let n := (vocab_list cands).length
    let A := adjacency cands window
    let s0v : Fin n → ℚ := fun i => s0 i.val
    let m0 := Nat.find (pr_terminates n A s0v (adjacency_nonneg cands window))
    let scores := pr_iter n (transition n A) s0v (m0 + 1)
    let wsList : List (String × ℚ) :=
      (List.finRange n).map (fun i => ((vocab_list cands).getD i.val "", scores i))
    ((sortScoresDesc (combine wsList doc [])).take top_k).map
      (fun kv => ⟨kv.1, pyRound4 kv.2, none⟩)

end KeywordExtractor

/-- The runtime shape of a `textrank` return value: either a bare list
(what the code actually returns at lines 91 and 146) or the
(list, graph) pair promised by the type annotation and the spec. -/
inductive TRRet where
  | list : List KWEntry → TRRet
  | pair : List KWEntry → KGraph → TRRet
deriving DecidableEq

/-- The wrapper `KeywordExtractor.textrank`: both `return` statements (lines 91 and
146) produce a bare keyword list despite the `tuple[list[dict], dict]`
annotation; callers (text_analyzer.py line 64) iterate it as a list. -/
def KeywordExtractor.textrank (stop : List String) (doc : List Token)
    (window top_k : ℕ) (s0 : ℕ → ℚ) : TRRet :=
  TRRet.list (KeywordExtractor.textrankList stop doc window top_k s0)

/-- C3 (counterexample): the graph-based ranker does not return a
(keyword list, graph) pair: on the empty document it returns the bare
empty list, not an empty list together with an empty graph. -/
theorem textrank_no_graph_counterexample :
    ¬ ∃ (kws : List KWEntry) (g : KGraph),
      KeywordExtractor.textrank [] [] 4 10 (fun _ => 0) = TRRet.pair kws g := by
  rintro ⟨kws, g, h⟩
  rw [show KeywordExtractor.textrank [] [] 4 10 (fun _ => 0)
      = TRRet.list [] from rfl] at h
  exact TRRet.noConfusion h

/-- C3 (amended): for every annotated document, stopword set, window,
top_k and start vector, the graph-based ranker returns only a ranked
keyword list (no auxiliary graph); when the candidate-lemma set is empty
the returned list is empty; the ranker is a total function of its
inputs, so it never raises. -/
theorem textrank_returns_list (stop : List String) (doc : List Token)
    (window top_k : ℕ) (s0 : ℕ → ℚ) :
    ∃ kws : List KWEntry,
      KeywordExtractor.textrank stop doc window top_k s0 = TRRet.list kws
      ∧ (KeywordExtractor.candidate_lemmas stop doc = [] → kws = []) := by
  refine ⟨KeywordExtractor.textrankList stop doc window top_k s0, rfl, ?_⟩
  intro h
  simp [KeywordExtractor.textrankList, h]

/-- C3 witness: on the empty document the ranker returns the bare empty
list. -/
theorem textrank_returns_list_witness :
    KeywordExtractor.textrank [] [] 4 10 (fun _ => 0) = TRRet.list [] := by
  obtain ⟨kws, h1, h2⟩ := textrank_returns_list [] [] 4 10 (fun _ => 0)
  rw [h1, h2 rfl]

/-! Section: C1: the loop has no iteration cap -/

/-- The co-occurrence matrix of an 800-word cyclic pattern: word `i` is
adjacent to words `i ± 1 (mod 800)`, each edge with weight 1 — the graph
of a cyclic candidate sequence (the claim covers cyclic co-occurrence
graphs explicitly). -/
def cycleAdj (N : ℕ) (i j : ℕ) : ℚ :=
  if i < N ∧ j < N ∧ (j = (i + 1) % N ∨ i = (j + 1) % N) then 1 else 0

lemma sum_ind_fin (N a : ℕ) (ha : a < N) :
    (∑ j : Fin N, if j.val = a then (1 : ℚ) else 0) = 1 := by
  rw [Finset.sum_eq_single (⟨a, ha⟩ : Fin N)]
  · simp
  · intro b _ hb
    rw [if_neg]
    intro hv
    exact hb (Fin.ext hv)
  · intro h
    exact absurd (Finset.mem_univ _) h

lemma cycleAdj_rowSum (i : ℕ) (hi : i < 800) :
    KeywordExtractor.rowSum 800 (cycleAdj 800) i = 2 := by
  rw [KeywordExtractor.rowSum]
  have key : ∀ j : Fin 800, cycleAdj 800 i j.val
      = (if j.val = (i + 1) % 800 then (1 : ℚ) else 0)
        + (if j.val = (i + 799) % 800 then (1 : ℚ) else 0) := by
    intro j
    have hj : j.val < 800 := j.isLt
    rw [cycleAdj]
    by_cases h1 : j.val = (i + 1) % 800 <;> by_cases h2 : j.val = (i + 799) % 800
    · exfalso
      omega
    · rw [if_pos ⟨hi, hj, Or.inl h1⟩, if_pos h1, if_neg h2]
      norm_num
    · rw [if_pos ⟨hi, hj, Or.inr (by omega)⟩, if_neg h1, if_pos h2]
      norm_num
    · rw [if_neg, if_neg h1, if_neg h2]
      · norm_num
      · rintro ⟨-, -, h | h⟩
        · exact h1 h
        · exact h2 (by omega)
  rw [Finset.sum_congr rfl (fun j _ => key j), Finset.sum_add_distrib,
    sum_ind_fin 800 _ (by omega), sum_ind_fin 800 _ (by omega)]
  norm_num

lemma cycleAdj_symm (i j : ℕ) : cycleAdj 800 i j = cycleAdj 800 j i := by
  rw [cycleAdj, cycleAdj]
  refine if_congr ?_ rfl rfl
  constructor
  · rintro ⟨h1, h2, h3⟩
    exact ⟨h2, h1, h3.symm⟩
  · rintro ⟨h1, h2, h3⟩
    exact ⟨h2, h1, h3.symm⟩

lemma cycleT (i j : ℕ) (hi : i < 800) :
    KeywordExtractor.transition 800 (cycleAdj 800) i j = cycleAdj 800 i j / 2 := by
  rw [KeywordExtractor.transition, cycleAdj_rowSum i hi]
  norm_num

lemma cycleT_colSum (i : Fin 800) :
    (∑ j : Fin 800,
      KeywordExtractor.transition 800 (cycleAdj 800) j.val i.val) = 1 := by
  have h : ∀ j : Fin 800,
      KeywordExtractor.transition 800 (cycleAdj 800) j.val i.val
        = cycleAdj 800 i.val j.val / 2 := by
    intro j
    rw [cycleT j.val i.val j.isLt, cycleAdj_symm]
  rw [Finset.sum_congr rfl (fun j _ => h j), ← Finset.sum_div]
  have h2 : (∑ j : Fin 800, cycleAdj 800 i.val j.val)
      = KeywordExtractor.rowSum 800 (cycleAdj 800) i.val := rfl
  rw [h2, cycleAdj_rowSum i.val i.isLt]
  norm_num

lemma cycle_step_const (c : ℚ) :
    KeywordExtractor.pr_step 800 (KeywordExtractor.transition 800 (cycleAdj 800))
      (fun _ => c) = fun _ => 3 / 20 + 17 / 20 * c := by
  funext i
  rw [KeywordExtractor.pr_step, ← Finset.sum_mul, cycleT_colSum i]
  ring

lemma cycle_iter (k : ℕ) :
    KeywordExtractor.pr_iter 800 (KeywordExtractor.transition 800 (cycleAdj 800))
      (fun _ => 0) k = fun _ => 1 - (17 / 20) ^ k := by
  induction k with
  | zero =>
    funext i
    rw [KeywordExtractor.pr_iter]
    norm_num
  | succ k ih =>
    rw [KeywordExtractor.pr_iter, ih, cycle_step_const]
    funext i
    ring

lemma cycle_l1 (m : ℕ) :
    KeywordExtractor.l1dist 800
      (KeywordExtractor.pr_iter 800
        (KeywordExtractor.transition 800 (cycleAdj 800)) (fun _ => 0) (m + 1))
      (KeywordExtractor.pr_iter 800
        (KeywordExtractor.transition 800 (cycleAdj 800)) (fun _ => 0) m)
      = 120 * (17 / 20) ^ m := by
  rw [cycle_iter (m + 1), cycle_iter m, KeywordExtractor.l1dist]
  have key : ∀ i : Fin 800,
      |(1 - (17 / 20 : ℚ) ^ (m + 1)) - (1 - (17 / 20) ^ m)|
        = 3 / 20 * (17 / 20) ^ m := by
    intro i
    have hv : (1 - (17 / 20 : ℚ) ^ (m + 1)) - (1 - (17 / 20) ^ m)
        = 3 / 20 * (17 / 20) ^ m := by ring
    rw [hv, abs_of_nonneg (by positivity)]
  rw [Finset.sum_congr rfl (fun i _ => key i), Finset.sum_const,
    Finset.card_univ, Fintype.card_fin, nsmul_eq_mul]
  push_cast
  ring

/-- C1 (counterexample): on the 800-cycle co-occurrence graph, starting
from the zero score vector (a possible `np.random.rand` outcome), none
of the first 100 loop passes meets the tolerance: the claimed iteration
cap of 100 does not exist in the code (`while True` at line 111), and
the loop runs past it. -/
theorem textrank_iteration_cap_counterexample :
    ¬ KeywordExtractor.pr_stops_within 800
      (KeywordExtractor.transition 800 (cycleAdj 800)) (fun _ => 0) 100 := by
  rintro ⟨m, hm, hc⟩
  rw [KeywordExtractor.pr_conv, cycle_l1 m] at hc
  have h99 : ((17 : ℚ) / 20) ^ 99 ≤ (17 / 20) ^ m :=
    pow_le_pow_of_le_one (by norm_num) (by norm_num) (by omega)
  have hbound : (1 : ℚ) / 100000 ≤ 120 * (17 / 20) ^ 99 := by norm_num
  have hmono : (120 : ℚ) * (17 / 20) ^ 99 ≤ 120 * (17 / 20) ^ m :=
    mul_le_mul_of_nonneg_left h99 (by norm_num)
  linarith

/-- C1 (amended): the power iteration of the graph-based ranker has no
iteration cap; it stops exactly when the L1 distance between successive
score vectors falls below the tolerance, and in exact arithmetic this
happens after finitely many passes for every nonnegative co-occurrence
matrix and every start vector, because the successive-difference norm
contracts by the damping factor each pass. -/
theorem textrank_power_iteration_terminates (n : ℕ) (A : ℕ → ℕ → ℚ)
    (s0 : Fin n → ℚ) (hA : ∀ i j, 0 ≤ A i j) :
    ∃ m, KeywordExtractor.pr_conv n (KeywordExtractor.transition n A) s0 m :=
  KeywordExtractor.pr_terminates n A s0 hA

/-- C1 witness: termination at a concrete instance (single isolated
word, zero start vector). -/
theorem textrank_power_iteration_terminates_witness :
    ∃ m, KeywordExtractor.pr_conv 1
      (KeywordExtractor.transition 1 (fun _ _ => 0)) (fun _ => 0) m :=
  textrank_power_iteration_terminates 1 (fun _ _ => 0) (fun _ => 0)
    (fun _ _ => le_refl 0)

/-! Section: C4: the co-occurrence window -/

/-- The contribution predicate of one ordered position pair to the
`(x, y)` entry of the adjacency matrix: its two vocabulary indices are
distinct and form the unordered pair (x, y). -/
def coocMatch (cands : List String) (x y : ℕ) (ij : ℕ × ℕ) : Prop :=
  KeywordExtractor.word_to_index cands (cands.getD ij.1 "")
      ≠ KeywordExtractor.word_to_index cands (cands.getD ij.2 "")
  ∧ ((KeywordExtractor.word_to_index cands (cands.getD ij.1 "") = x
      ∧ KeywordExtractor.word_to_index cands (cands.getD ij.2 "") = y)
    ∨ (KeywordExtractor.word_to_index cands (cands.getD ij.1 "") = y
      ∧ KeywordExtractor.word_to_index cands (cands.getD ij.2 "") = x))

instance coocMatch_decidable (cands : List String) (x y : ℕ) :
    DecidablePred (coocMatch cands x y) := fun ij => by
  unfold coocMatch
  infer_instance

/-- The occurrence pairs the claim describes: positions `i < j` of the
working sequence with `j - i ≤ gap`, contributing to entry `(x, y)`.
Modelled from the claim's words (`gap = window` as claimed; the code
realizes `gap = window - 1`). -/
def coocPairs (cands : List String) (gap : ℕ) (x y : ℕ) : Finset (ℕ × ℕ) :=
  (Finset.range cands.length ×ˢ Finset.range cands.length).filter
    (fun ij => ij.1 < ij.2 ∧ ij.2 - ij.1 ≤ gap ∧ coocMatch cands x y ij)

lemma adjacency_foldl_count (cands : List String) (x y : ℕ) (hxy : x ≠ y)
    (ps : List (ℕ × ℕ)) : ∀ A : ℕ → ℕ → ℚ,
    (ps.foldl (fun A ij =>
        let a := KeywordExtractor.word_to_index cands (cands.getD ij.1 "")
        let b := KeywordExtractor.word_to_index cands (cands.getD ij.2 "")
        if a = b then A else KeywordExtractor.bumpQ
          (KeywordExtractor.bumpQ A a b) b a) A) x y
      = A x y + ((ps.countP (fun ij => decide (coocMatch cands x y ij))) : ℚ) := by
  induction ps with
  | nil => intro A; simp
  | cons ij ps ih =>
    intro A
    rw [List.foldl_cons, ih, List.countP_cons]
    set a := KeywordExtractor.word_to_index cands (cands.getD ij.1 "") with ha
    set b := KeywordExtractor.word_to_index cands (cands.getD ij.2 "") with hb
    by_cases hab : a = b
    · have hpred : decide (coocMatch cands x y ij) = false := by
        rw [decide_eq_false_iff_not]
        rintro ⟨hne, -⟩
        apply hne
        rw [← ha, ← hb]
        exact hab
      simp only [if_pos hab, hpred]
      push_cast
      ring
    · by_cases h1 : x = a ∧ y = b
      · have h2 : ¬(x = b ∧ y = a) := by
          rintro ⟨hxb, -⟩
          exact hab (h1.1.symm.trans hxb)
        have hpred : decide (coocMatch cands x y ij) = true := by
          simp only [decide_eq_true_eq]
          exact ⟨hab, Or.inl ⟨h1.1.symm, h1.2.symm⟩⟩
        simp only [if_neg hab, KeywordExtractor.bumpQ, if_neg h2, if_pos h1, hpred]
        push_cast
        ring
      · by_cases h2 : x = b ∧ y = a
        · have hpred : decide (coocMatch cands x y ij) = true := by
            simp only [decide_eq_true_eq]
            exact ⟨hab, Or.inr ⟨h2.2.symm, h2.1.symm⟩⟩
          simp only [if_neg hab, KeywordExtractor.bumpQ, if_pos h2, if_neg h1, hpred]
          push_cast
          ring
        · have hpred : decide (coocMatch cands x y ij) = false := by
            simp only [decide_eq_false_iff_not]
            rintro ⟨-, ⟨hax, hby⟩ | ⟨hay, hbx⟩⟩
            · exact h1 ⟨hax.symm, hby.symm⟩
            · exact h2 ⟨hbx.symm, hay.symm⟩
          simp only [if_neg hab, KeywordExtractor.bumpQ, if_neg h2, if_neg h1, hpred]
          push_cast
          ring

lemma mem_pair_list {i j len window : ℕ} :
    (i, j) ∈ KeywordExtractor.pair_list len window
      ↔ i < len ∧ i + 1 ≤ j ∧ j < min (i + window) len := by
  rw [KeywordExtractor.pair_list, List.mem_bind]
  constructor
  · rintro ⟨i', hi', hm⟩
    rw [List.mem_map] at hm
    obtain ⟨j', hj', hj'eq⟩ := hm
    obtain ⟨rfl, rfl⟩ : i' = i ∧ j' = j := by
      constructor <;> (cases hj'eq; rfl)
    rw [List.mem_range] at hi'
    rw [List.mem_range'_1] at hj'
    refine ⟨hi', hj'.1, ?_⟩
    omega
  · rintro ⟨hi, hij, hj⟩
    refine ⟨i, List.mem_range.2 hi, List.mem_map.2 ⟨j, ?_, rfl⟩⟩
    rw [List.mem_range'_1]
    omega

lemma pair_list_nodup (len window : ℕ) :
    (KeywordExtractor.pair_list len window).Nodup := by
  rw [KeywordExtractor.pair_list, List.nodup_bind]
  constructor
  · intro i _
    apply List.Nodup.map
    · intro j1 j2 he
      cases he
      rfl
    · exact List.nodup_range' ..
  · have hnd : (List.range len).Pairwise (· ≠ ·) := List.nodup_range len
    apply List.Pairwise.imp _ hnd
    intro a b hab
    intro p hp hq
    rw [List.mem_map] at hp hq
    obtain ⟨j1, -, rfl⟩ := hp
    obtain ⟨j2, -, he⟩ := hq
    have : b = a := by cases he; rfl
    exact hab this.symm

lemma adjacency_eq_card (cands : List String) (window : ℕ) (x y : ℕ)
    (hxy : x ≠ y) :
    KeywordExtractor.adjacency cands window x y
      = ((coocPairs cands (window - 1) x y).card : ℚ) := by
  rw [KeywordExtractor.adjacency, adjacency_foldl_count cands x y hxy]
  rw [zero_add]
  congr 1
  rw [List.countP_eq_length_filter]
  have hnd : ((KeywordExtractor.pair_list cands.length window).filter
      (fun ij => decide (coocMatch cands x y ij))).Nodup :=
    (pair_list_nodup _ _).filter _
  rw [← List.toFinset_card_of_nodup hnd]
  congr 1
  apply Finset.ext
  rintro ⟨i, j⟩
  rw [List.mem_toFinset, List.mem_filter, coocPairs, Finset.mem_filter,
    Finset.mem_product, Finset.mem_range, Finset.mem_range, mem_pair_list]
  constructor
  · rintro ⟨⟨hi, hij, hj⟩, hm⟩
    have hm' := of_decide_eq_true hm
    exact ⟨⟨by omega, by omega⟩, by omega, by omega, hm'⟩
  · rintro ⟨⟨hi, hj⟩, hij, hgap, hm⟩
    exact ⟨⟨by omega, by omega, by omega⟩, decide_eq_true hm⟩

/-- C4 (counterexample): for the candidate sequence
["a", "c", "c", "c", "b"] with the default window 4, positions 0 and 4
form an occurrence pair at distance exactly `window` whose vocabulary
indices (0 for "a", 2 for "b") are distinct, so the claim's rule counts
one symmetric increment, but the code's adjacency entry is 0: pairs at
distance exactly `window` are never visited by
`range(i+1, min(i+window, len))`. -/
theorem adjacency_window_counterexample :
    KeywordExtractor.word_to_index ["a", "c", "c", "c", "b"] "a" = 0
    ∧ KeywordExtractor.word_to_index ["a", "c", "c", "c", "b"] "b" = 2
    ∧ (coocPairs ["a", "c", "c", "c", "b"] 4 0 2).card = 1
    ∧ KeywordExtractor.adjacency ["a", "c", "c", "c", "b"] 4 0 2 = 0 := by
  refine ⟨by decide, by decide, by decide, by decide⟩

/-- C4 (amended): for distinct vocabulary indices `x ≠ y`, the adjacency
entry `(x, y)` built by the code equals the number of occurrence pairs
`(i, j)` with `i < j`, `j - i ≤ window - 1` (not `≤ window` as claimed)
whose vocabulary indices form the unordered pair (x, y); the matrix is
symmetric in `(x, y)`. -/
theorem adjacency_cooccurrence_spec (cands : List String) (window : ℕ)
    (x y : ℕ) (hxy : x ≠ y) :
    KeywordExtractor.adjacency cands window x y
        = ((coocPairs cands (window - 1) x y).card : ℚ)
    ∧ KeywordExtractor.adjacency cands window x y
        = KeywordExtractor.adjacency cands window y x := by
  refine ⟨adjacency_eq_card cands window x y hxy, ?_⟩
  rw [adjacency_eq_card cands window x y hxy,
    adjacency_eq_card cands window y x hxy.symm]
  have hsymm : coocPairs cands (window - 1) x y
      = coocPairs cands (window - 1) y x := by
    apply Finset.ext
    intro ij
    rw [coocPairs, coocPairs, Finset.mem_filter, Finset.mem_filter]
    constructor
    · rintro ⟨hp, h1, h2, hm⟩
      exact ⟨hp, h1, h2, hm.1, hm.2.symm⟩
    · rintro ⟨hp, h1, h2, hm⟩
      exact ⟨hp, h1, h2, hm.1, hm.2.symm⟩
  rw [hsymm]

/-- C4 witness: the amended characterization evaluated on the two-word
sequence ["a", "b"]. -/
theorem adjacency_cooccurrence_spec_witness :
    KeywordExtractor.adjacency ["a", "b"] 4 0 1
      = ((coocPairs ["a", "b"] 3 0 1).card : ℚ) :=
  (adjacency_cooccurrence_spec ["a", "b"] 4 0 1 (by decide)).1

/-! Section: TextAnalyzer: the aggregator (text_analyzer.py lines 25-139) -/

/-- A dependency relation edge, Python dict with keys "source", "label",
"target". -/
structure Relation where
  source : String
  label : String
  target : String
deriving DecidableEq, Repr

/-- The five QA buckets (Python dict with fixed keys "who", "what",
"where", "when", "why"; the latter three renamed `whereQ`/`whenQ`/`why`
as `where`/`when` are Lean keywords). -/
structure QABuckets where
  who : List String
  what : List String
  whereQ : List String
  whenQ : List String
  why : List String
deriving DecidableEq, Repr

/-- The aggregated analysis result (text_analyzer.py lines 128-139). -/
structure AnalyzeResult where
  extractedText : String
  rake : List KWEntry
  textrank : List KWEntry
  relations : List Relation
  kg : KGraph
  triples : List TripleExtractor.Triple
  qa : QABuckets
  ner : List (String × List String)
deriving DecidableEq, Repr

namespace TextAnalyzer

/-- text_analyzer.py lines 25-26: normalized tokens of all keyword
phrases (a Python set; membership is all that is used). -/
def token_set (keywords : List String) : List String :=
  keywords.bind (fun kw => (pySplit kw).map Normalizer.norm)

/-- One step of the relation loop (text_analyzer.py lines 32-42). -/
def relStep (kwtok : List String) (sent : List Token) (t : Token)
    (acc : List Relation) : List Relation :=
  let source := Normalizer.norm (TripleExtractor.headTok sent t).lemma_
  let target := Normalizer.norm t.lemma_
  if source = target then acc
  else if source ∈ kwtok ∨ target ∈ kwtok then
    if (⟨source, t.dep, target⟩ : Relation) ∈ acc then acc
    else acc ++ [⟨source, t.dep, target⟩]
  else acc

/-- text_analyzer.py lines 29-43: dependency relations touching the
keyword token set, deduplicated, in document order. -/
def extract_relations (doc : List (List Token)) (kws : List String) :
    List Relation :=
  (doc.bind (fun sent => sent.map (fun t => (sent, t)))).foldl
    (fun acc st => relStep (token_set kws) st.1 st.2 acc) []

/-- text_analyzer.py lines 50-57: the normalized-entity-text → label
dict: entity spans first (later spans overwrite), then backfill from
tokens carrying an entity type not already present. -/
def entitiesMap (doc : List (List Token)) (ents : List (String × String)) :
    List (String × String) :=
  let m1 := ents.foldl
    (fun m e => updateAssoc m (Normalizer.norm (pyStrip e.1)) e.2) []
  (doc.join).foldl
    (fun m t =>
      if t.entType ≠ "" ∧ lookupAssoc m (Normalizer.norm (pyStrip t.text)) = none then
        updateAssoc m (Normalizer.norm (pyStrip t.text)) t.entType
      else m) m1

/-- text_analyzer.py lines 75-77: the "who" bucket. -/
def who_bucket (doc : List (List Token)) : List String :=
  doc.bind (fun sent => sent.filterMap (fun t =>
    if (t.dep = "nsubj" ∨ t.dep = "nsubjpass")
        ∧ ((TripleExtractor.headTok sent t).pos = "VERB"
          ∨ (TripleExtractor.headTok sent t).pos = "AUX") then
      some (Normalizer.norm t.lemma_ ++ " "
        ++ Normalizer.norm (TripleExtractor.headTok sent t).lemma_)
    else none))

/-- text_analyzer.py lines 85-87: the "where" bucket. -/
def where_bucket (em : List (String × String)) : List String :=
  (em.filter (fun kv => decide (kv.2 ∈ ["LOC", "GPE", "FACILITY"]))).map
    (fun kv => kv.1)

/-- text_analyzer.py lines 88-89: the "when" bucket (an `elif`, so only
labels not already matched by the where-set). -/
def when_bucket (em : List (String × String)) : List String :=
  (em.filter (fun kv => decide (kv.2 ∉ ["LOC", "GPE", "FACILITY"]
    ∧ kv.2 ∈ ["DATE", "TIME", "DATETIME"]))).map (fun kv => kv.1)

/-- Python's regex word character `\w`, modelled over the same character
fragment as the Normalizer tables. -/
def isWordChar (c : Char) : Bool :=
  (('a' ≤ c && c ≤ 'z') || ('A' ≤ c && c ≤ 'Z') || ('0' ≤ c && c ≤ '9')
    || (c == '_'))
  || (c ∈ ['ă', 'â', 'î', 'ș', 'ț', 'ş', 'ţ', 'Ă', 'Â', 'Î', 'Ș', 'Ț', 'Ş', 'Ţ'])

/-- Start positions of `\b marker \b` matches in a char list (model of
`re.finditer` at text_analyzer.py line 96). -/
def matchPositions (marker : List Char) (txt : List Char) : List ℕ :=
  (List.range txt.length).filter (fun i =>
    decide (startsWithChars marker (txt.drop i) = true
      ∧ (i = 0 ∨ isWordChar (txt.getD (i - 1) ' ') = false)
      ∧ (txt.length ≤ i + marker.length
        ∨ isWordChar (txt.getD (i + marker.length) ' ') = false)))

/-- text_analyzer.py line 93: the Romanian causal markers. -/
def cause_markers : List String :=
  ["pentru că", "deoarece", "fiindcă", "din cauză că", "căci"]

/-- text_analyzer.py lines 92-99: for each marker match in the lowered
text, take up to 200 characters, cut at the first period, and strip. -/
def why_fragments (txt : String) : List String :=
  let lowered := txt.data.map Normalizer.pyLower
  cause_markers.bind (fun marker =>
    (matchPositions marker.data lowered).map (fun idx =>
      pyStrip ⟨((lowered.drop idx).take 200).takeWhile (fun c => !(c == '.'))⟩))

/-- text_analyzer.py line 100: normalize each causal fragment. -/
def why_bucket (txt : String) : List String :=
  (why_fragments txt).map Normalizer.norm

/-- text_analyzer.py lines 114-118: group entity texts by label,
insertion order preserved. -/
def ner_groups (em : List (String × String)) : List (String × List String) :=
  em.foldl (fun acc kv =>
    match lookupAssoc acc kv.2 with
    | some l => updateAssoc acc kv.2 (l ++ [kv.1])
    | none => acc ++ [(kv.2, [kv.1])]) []

/-- text_analyzer.py lines 46-139: the whole analysis.  `doc` and `ents`
stand for the spaCy annotation of `txt` (sentences of tokens, and the
document-level entity spans); `s0` is the ranker's random start
vector, exposed as an input. -/
def analyze (stop : List String) (txt : String) (doc : List (List Token))
    (ents : List (String × String)) (s0 : ℕ → ℚ) : AnalyzeResult :=
  let flat := doc.join
  let em := entitiesMap doc ents
  let rakeKW := KeywordExtractor.rake stop flat 10
  let trKW := KeywordExtractor.textrankList stop flat 4 10 s0
  let relations := extract_relations doc
    (rakeKW.map (fun k => k.keyword) ++ trKW.map (fun k => k.keyword))
  let triples := TripleExtractor.extract doc
  let kg := TripleExtractor.to_graph triples
  let qa : QABuckets :=
    ⟨qa_dedup (who_bucket doc), qa_dedup (what_bucket triples),
      qa_dedup (where_bucket em), qa_dedup (when_bucket em),
      qa_dedup (why_bucket txt)⟩
  ⟨txt, rakeKW, trKW, relations, kg, triples, qa,
    (ner_groups em).map (fun g => (g.1, ner_dedup g.2))⟩

end TextAnalyzer

/-! Section: C2: dependence on the random start vector

The fixture document "a r b" (two nouns separated by a verb) has the
two-word vocabulary a, b with the single co-occurrence edge a—b.  The
update swaps and damps the two coordinates, so from start (1/2, 0) the
iterates are `abXY k`, with closed form
`x k = 1 - 3/4 q^k + 1/4 (-q)^k`, `y k = 1 - 3/4 q^k - 1/4 (-q)^k`
(`q = 17/20`); the L1 distance of successive iterates is
`37/40 * q^k`, so the loop stops at pass 72 (the first pass whose
distance is below 1e-5), returning iterate 72.  From the mirrored start
(0, 1/2) the coordinates are swapped throughout; both scores round to
1.0000 but the strict order of the exact scores flips, so the two runs
return the same keywords in different order. -/

/-- The tokens of the fixture document "a r b". -/
def abFlat : List Token :=
  [⟨"a", "a", "NOUN", "nsubj", 1, "", true⟩,
   ⟨"r", "r", "VERB", "ROOT", 1, "", true⟩,
   ⟨"b", "b", "NOUN", "obj", 1, "", true⟩]

/-- The fixture document as one sentence. -/
def abDoc : List (List Token) := [abFlat]

/-- First start vector (a possible `np.random.rand(2)` outcome). -/
def abS01 : ℕ → ℚ := fun i => if i = 0 then 1/2 else 0

/-- Second start vector, mirroring the first. -/
def abS02 : ℕ → ℚ := fun i => if i = 0 then 0 else if i = 1 then 1/2 else 0

/-- The fixture's co-occurrence matrix. -/
def abA2 : ℕ → ℕ → ℚ := KeywordExtractor.adjacency ["a", "b"] 4

/-- The fixture's transition matrix. -/
def abT2 : ℕ → ℕ → ℚ := KeywordExtractor.transition 2 abA2

/-- The fixture's first start vector over `Fin 2`. -/
def abSv1 : Fin 2 → ℚ := fun i => abS01 i.val

/-- The fixture's second start vector over `Fin 2`. -/
def abSv2 : Fin 2 → ℚ := fun i => abS02 i.val

/-- The two score coordinates of the iterates from start (1/2, 0). -/
def abXY : ℕ → ℚ × ℚ
  | 0 => (1/2, 0)
  | k + 1 => (3/20 + 17/20 * (abXY k).2, 3/20 + 17/20 * (abXY k).1)

lemma abA2_00 : abA2 0 0 = 0 := by decide

lemma abA2_01 : abA2 0 1 = 1 := by
  show KeywordExtractor.adjacency ["a", "b"] 4 0 1 = 1
  rw [adjacency_eq_card ["a", "b"] 4 0 1 (by norm_num)]
  show ((coocPairs ["a", "b"] 3 0 1).card : ℚ) = 1
  rw [show (coocPairs ["a", "b"] 3 0 1).card = 1 from by decide]
  norm_num

lemma abA2_10 : abA2 1 0 = 1 := by
  show KeywordExtractor.adjacency ["a", "b"] 4 1 0 = 1
  rw [adjacency_eq_card ["a", "b"] 4 1 0 (by norm_num)]
  show ((coocPairs ["a", "b"] 3 1 0).card : ℚ) = 1
  rw [show (coocPairs ["a", "b"] 3 1 0).card = 1 from by decide]
  norm_num

lemma abA2_11 : abA2 1 1 = 0 := by decide

lemma abA2_rs0 : KeywordExtractor.rowSum 2 abA2 0 = 1 := by
  rw [KeywordExtractor.rowSum, Fin.sum_univ_two]
  show abA2 0 0 + abA2 0 1 = 1
  rw [abA2_00, abA2_01]
  norm_num

lemma abA2_rs1 : KeywordExtractor.rowSum 2 abA2 1 = 1 := by
  rw [KeywordExtractor.rowSum, Fin.sum_univ_two]
  show abA2 1 0 + abA2 1 1 = 1
  rw [abA2_10, abA2_11]
  norm_num

lemma abT2_00 : abT2 0 0 = 0 := by
  show KeywordExtractor.transition 2 abA2 0 0 = 0
  rw [KeywordExtractor.transition, abA2_rs0, abA2_00]
  norm_num

lemma abT2_01 : abT2 0 1 = 1 := by
  show KeywordExtractor.transition 2 abA2 0 1 = 1
  rw [KeywordExtractor.transition, abA2_rs0, abA2_01]
  norm_num

lemma abT2_10 : abT2 1 0 = 1 := by
  show KeywordExtractor.transition 2 abA2 1 0 = 1
  rw [KeywordExtractor.transition, abA2_rs1, abA2_10]
  norm_num

lemma abT2_11 : abT2 1 1 = 0 := by
  show KeywordExtractor.transition 2 abA2 1 1 = 0
  rw [KeywordExtractor.transition, abA2_rs1, abA2_11]
  norm_num

lemma ab_step (v : Fin 2 → ℚ) :
    KeywordExtractor.pr_step 2 abT2 v
      = fun i => if i.val = 0 then 3/20 + 17/20 * v 1
        else 3/20 + 17/20 * v 0 := by
  funext i
  rw [KeywordExtractor.pr_step, Fin.sum_univ_two]
  fin_cases i
  · show 3/20 + 17/20 * (abT2 0 0 * v 0 + abT2 1 0 * v 1) = _
    rw [abT2_00, abT2_10]
    norm_num
  · show 3/20 + 17/20 * (abT2 0 1 * v 0 + abT2 1 1 * v 1) = _
    rw [abT2_01, abT2_11]
    norm_num

lemma ab_iter1 (k : ℕ) :
    KeywordExtractor.pr_iter 2 abT2 abSv1 k
      = fun i => if i.val = 0 then (abXY k).1 else (abXY k).2 := by
  induction k with
  | zero =>
    funext i
    fin_cases i <;> rfl
  | succ k ih =>
    rw [KeywordExtractor.pr_iter, ih, ab_step]
    funext i
    fin_cases i <;> rfl

lemma ab_iter2 (k : ℕ) :
    KeywordExtractor.pr_iter 2 abT2 abSv2 k
      = fun i => if i.val = 0 then (abXY k).2 else (abXY k).1 := by
  induction k with
  | zero =>
    funext i
    fin_cases i <;> rfl
  | succ k ih =>
    rw [KeywordExtractor.pr_iter, ih, ab_step]
    funext i
    fin_cases i <;> rfl

lemma abXY_closed (k : ℕ) :
    (abXY k).1 = 1 - 3/4 * (17/20) ^ k + 1/4 * (-(17/20 : ℚ)) ^ k
    ∧ (abXY k).2 = 1 - 3/4 * (17/20) ^ k - 1/4 * (-(17/20 : ℚ)) ^ k := by
  induction k with
  | zero => norm_num [abXY]
  | succ k ih =>
    obtain ⟨h1, h2⟩ := ih
    constructor
    · show 3/20 + 17/20 * (abXY k).2 = _
      rw [h2]
      ring
    · show 3/20 + 17/20 * (abXY k).1 = _
      rw [h1]
      ring

/-- The L1 distance of successive iterates, via the closed forms. -/
lemma ab_absdiff (m : ℕ) :
    |(abXY (m + 1)).1 - (abXY m).1| + |(abXY (m + 1)).2 - (abXY m).2|
      = 37/40 * (17/20) ^ m := by
  obtain ⟨hx1, hy1⟩ := abXY_closed (m + 1)
  obtain ⟨hx0, hy0⟩ := abXY_closed m
  rw [hx1, hy1, hx0, hy0]
  have habs : |(17/20 : ℚ) ^ m| = (17/20) ^ m := abs_of_nonneg (by positivity)
  rcases Nat.even_or_odd m with hpar | hpar
  · have hm1 : Odd (m + 1) := Even.add_one hpar
    rw [hpar.neg_pow, hm1.neg_pow]
    have e1 : (1 - 3/4 * (17/20 : ℚ) ^ (m + 1) + 1/4 * -((17/20) ^ (m + 1)))
        - (1 - 3/4 * (17/20) ^ m + 1/4 * (17/20) ^ m)
        = -(7/20 * (17/20) ^ m) := by
      rw [pow_succ]
      ring
    have e2 : (1 - 3/4 * (17/20 : ℚ) ^ (m + 1) - 1/4 * -((17/20) ^ (m + 1)))
        - (1 - 3/4 * (17/20) ^ m - 1/4 * (17/20) ^ m)
        = 23/40 * (17/20) ^ m := by
      rw [pow_succ]
      ring
    rw [e1, e2, abs_neg, abs_mul, abs_mul, habs,
      abs_of_nonneg (show (0 : ℚ) ≤ 7/20 by norm_num),
      abs_of_nonneg (show (0 : ℚ) ≤ 23/40 by norm_num)]
    ring
  · have hm1 : Even (m + 1) := Odd.add_one hpar
    rw [hpar.neg_pow, hm1.neg_pow]
    have e1 : (1 - 3/4 * (17/20 : ℚ) ^ (m + 1) + 1/4 * (17/20) ^ (m + 1))
        - (1 - 3/4 * (17/20) ^ m + 1/4 * -((17/20) ^ m))
        = 23/40 * (17/20) ^ m := by
      rw [pow_succ]
      ring
    have e2 : (1 - 3/4 * (17/20 : ℚ) ^ (m + 1) - 1/4 * (17/20) ^ (m + 1))
        - (1 - 3/4 * (17/20) ^ m - 1/4 * -((17/20) ^ m))
        = -(7/20 * (17/20) ^ m) := by
      rw [pow_succ]
      ring
    rw [e1, e2, abs_neg, abs_mul, abs_mul, habs,
      abs_of_nonneg (show (0 : ℚ) ≤ 7/20 by norm_num),
      abs_of_nonneg (show (0 : ℚ) ≤ 23/40 by norm_num)]
    ring

lemma ab_l1_1 (m : ℕ) :
    KeywordExtractor.l1dist 2 (KeywordExtractor.pr_iter 2 abT2 abSv1 (m + 1))
      (KeywordExtractor.pr_iter 2 abT2 abSv1 m) = 37/40 * (17/20) ^ m := by
  rw [ab_iter1 (m + 1), ab_iter1 m, KeywordExtractor.l1dist, Fin.sum_univ_two]
  show |(abXY (m + 1)).1 - (abXY m).1| + |(abXY (m + 1)).2 - (abXY m).2| = _
  exact ab_absdiff m

lemma ab_l1_2 (m : ℕ) :
    KeywordExtractor.l1dist 2 (KeywordExtractor.pr_iter 2 abT2 abSv2 (m + 1))
      (KeywordExtractor.pr_iter 2 abT2 abSv2 m) = 37/40 * (17/20) ^ m := by
  rw [ab_iter2 (m + 1), ab_iter2 m, KeywordExtractor.l1dist, Fin.sum_univ_two]
  show |(abXY (m + 1)).2 - (abXY m).2| + |(abXY (m + 1)).1 - (abXY m).1| = _
  rw [add_comm]
  exact ab_absdiff m

/-- The loop's stopping index for the first start vector. -/
def abFind1 : ℕ :=
  Nat.find (KeywordExtractor.pr_terminates 2 abA2 abSv1
    (KeywordExtractor.adjacency_nonneg ["a", "b"] 4))

/-- The loop's stopping index for the second start vector. -/
def abFind2 : ℕ :=
  Nat.find (KeywordExtractor.pr_terminates 2 abA2 abSv2
    (KeywordExtractor.adjacency_nonneg ["a", "b"] 4))

lemma abFind1_eq : abFind1 = 71 := by
  unfold abFind1
  rw [Nat.find_eq_iff]
  constructor
  · show KeywordExtractor.pr_conv 2 abT2 abSv1 71
    rw [KeywordExtractor.pr_conv, ab_l1_1 71]
    norm_num
  · intro k hk
    show ¬ KeywordExtractor.pr_conv 2 abT2 abSv1 k
    rw [KeywordExtractor.pr_conv, ab_l1_1 k, not_lt]
    calc (1 : ℚ)/100000 ≤ 37/40 * (17/20) ^ 70 := by norm_num
      _ ≤ 37/40 * (17/20) ^ k :=
        mul_le_mul_of_nonneg_left
          (pow_le_pow_of_le_one (by norm_num) (by norm_num) (by omega))
          (by norm_num)

lemma abFind2_eq : abFind2 = 71 := by
  unfold abFind2
  rw [Nat.find_eq_iff]
  constructor
  · show KeywordExtractor.pr_conv 2 abT2 abSv2 71
    rw [KeywordExtractor.pr_conv, ab_l1_2 71]
    norm_num
  · intro k hk
    show ¬ KeywordExtractor.pr_conv 2 abT2 abSv2 k
    rw [KeywordExtractor.pr_conv, ab_l1_2 k, not_lt]
    calc (1 : ℚ)/100000 ≤ 37/40 * (17/20) ^ 70 := by norm_num
      _ ≤ 37/40 * (17/20) ^ k :=
        mul_le_mul_of_nonneg_left
          (pow_le_pow_of_le_one (by norm_num) (by norm_num) (by omega))
          (by norm_num)

/-- The returned score of word "a" in the first run. -/
def abXval : ℚ := 1 - 1/2 * (17/20) ^ 72

/-- The returned score of word "b" in the first run. -/
def abYval : ℚ := 1 - (17/20) ^ 72

lemma abX72 : (abXY 72).1 = abXval := by
  obtain ⟨h1, -⟩ := abXY_closed 72
  rw [h1, (by decide : Even (72 : ℕ)).neg_pow]
  show _ = 1 - 1/2 * (17/20 : ℚ) ^ 72
  ring

lemma abY72 : (abXY 72).2 = abYval := by
  obtain ⟨-, h2⟩ := abXY_closed 72
  rw [h2, (by decide : Even (72 : ℕ)).neg_pow]
  show _ = 1 - (17/20 : ℚ) ^ 72
  ring

lemma q72_small : (17/20 : ℚ) ^ 72 < 1/20000 := by norm_num

lemma q72_pos : (0 : ℚ) < (17/20) ^ 72 := by positivity

lemma abX_round : pyRound4 abXval = 1 := by
  apply pyRound4_eq_one_of
  · show 19999/20000 < 1 - 1/2 * (17/20 : ℚ) ^ 72
    linarith [q72_small, q72_pos]
  · show 1 - 1/2 * (17/20 : ℚ) ^ 72 ≤ 1
    linarith [q72_pos]

lemma abY_round : pyRound4 abYval = 1 := by
  apply pyRound4_eq_one_of
  · show 19999/20000 < 1 - (17/20 : ℚ) ^ 72
    linarith [q72_small]
  · show 1 - (17/20 : ℚ) ^ 72 ≤ 1
    linarith [q72_pos]

lemma abXY_lt : abYval < abXval := by
  show 1 - (17/20 : ℚ) ^ 72 < 1 - 1/2 * (17/20) ^ 72
  linarith [q72_pos]

lemma textrank_ab_1 :
    KeywordExtractor.textrankList [] abFlat 4 10 abS01
      = [⟨"a", 1, none⟩, ⟨"b", 1, none⟩] := by
  have h0 : KeywordExtractor.textrankList [] abFlat 4 10 abS01
      = ((sortScoresDesc (KeywordExtractor.combine
          [("a", KeywordExtractor.pr_iter 2 abT2 abSv1 (abFind1 + 1) 0),
           ("b", KeywordExtractor.pr_iter 2 abT2 abSv1 (abFind1 + 1) 1)]
          abFlat [])).take 10).map
        (fun kv => (⟨kv.1, pyRound4 kv.2, none⟩ : KWEntry)) := rfl
  rw [h0, abFind1_eq, ab_iter1 72]
  show ((sortScoresDesc (KeywordExtractor.combine
      [("a", (abXY 72).1), ("b", (abXY 72).2)] abFlat [])).take 10).map
    (fun kv => (⟨kv.1, pyRound4 kv.2, none⟩ : KWEntry)) = _
  rw [abX72, abY72]
  show ((sortScoresDesc [("a", abXval), ("b", abYval)]).take 10).map
    (fun kv => (⟨kv.1, pyRound4 kv.2, none⟩ : KWEntry)) = _
  have hsort : sortScoresDesc [("a", abXval), ("b", abYval)]
      = [("a", abXval), ("b", abYval)] := by
    show (if ("a", abXval).2 ≥ ("b", abYval).2
        then [("a", abXval), ("b", abYval)]
        else [("b", abYval), ("a", abXval)]) = [("a", abXval), ("b", abYval)]
    rw [if_pos (le_of_lt abXY_lt : ("b", abYval).2 ≤ ("a", abXval).2)]
  rw [hsort]
  show [(⟨"a", pyRound4 abXval, none⟩ : KWEntry), ⟨"b", pyRound4 abYval, none⟩]
    = [⟨"a", 1, none⟩, ⟨"b", 1, none⟩]
  rw [abX_round, abY_round]

lemma textrank_ab_2 :
    KeywordExtractor.textrankList [] abFlat 4 10 abS02
      = [⟨"b", 1, none⟩, ⟨"a", 1, none⟩] := by
  have h0 : KeywordExtractor.textrankList [] abFlat 4 10 abS02
      = ((sortScoresDesc (KeywordExtractor.combine
          [("a", KeywordExtractor.pr_iter 2 abT2 abSv2 (abFind2 + 1) 0),
           ("b", KeywordExtractor.pr_iter 2 abT2 abSv2 (abFind2 + 1) 1)]
          abFlat [])).take 10).map
        (fun kv => (⟨kv.1, pyRound4 kv.2, none⟩ : KWEntry)) := rfl
  rw [h0, abFind2_eq, ab_iter2 72]
  show ((sortScoresDesc (KeywordExtractor.combine
      [("a", (abXY 72).2), ("b", (abXY 72).1)] abFlat [])).take 10).map
    (fun kv => (⟨kv.1, pyRound4 kv.2, none⟩ : KWEntry)) = _
  rw [abX72, abY72]
  show ((sortScoresDesc [("a", abYval), ("b", abXval)]).take 10).map
    (fun kv => (⟨kv.1, pyRound4 kv.2, none⟩ : KWEntry)) = _
  have hsort : sortScoresDesc [("a", abYval), ("b", abXval)]
      = [("b", abXval), ("a", abYval)] := by
    show (if ("a", abYval).2 ≥ ("b", abXval).2
        then [("a", abYval), ("b", abXval)]
        else [("b", abXval), ("a", abYval)]) = [("b", abXval), ("a", abYval)]
    rw [if_neg (not_le.2 abXY_lt : ¬("b", abXval).2 ≤ ("a", abYval).2)]
  rw [hsort]
  show [(⟨"b", pyRound4 abXval, none⟩ : KWEntry), ⟨"a", pyRound4 abYval, none⟩]
    = [⟨"b", 1, none⟩, ⟨"a", 1, none⟩]
  rw [abX_round, abY_round]

/-- C2 (counterexample): two runs of the analyzer on the same input
text, stopword set and annotation output, differing only in the
graph-based ranker's random starting score vector, produce different
aggregated results: the textrank list comes back as [a, b] in one run
and [b, a] in the other. -/
theorem analyze_start_dependence_counterexample :
    TextAnalyzer.analyze [] "a r b" abDoc [] abS01
      ≠ TextAnalyzer.analyze [] "a r b" abDoc [] abS02 := by
  intro h
  have h2 := congrArg AnalyzeResult.textrank h
  rw [show (TextAnalyzer.analyze [] "a r b" abDoc [] abS01).textrank
      = KeywordExtractor.textrankList [] abFlat 4 10 abS01 from rfl,
    show (TextAnalyzer.analyze [] "a r b" abDoc [] abS02).textrank
      = KeywordExtractor.textrankList [] abFlat 4 10 abS02 from rfl,
    textrank_ab_1, textrank_ab_2] at h2
  have h3 := List.head_eq_of_cons_eq h2
  have h4 := congrArg KWEntry.keyword h3
  exact absurd h4 (by decide)

/-- C2 (amended): the embedded analysis is a pure function of (text,
stopword set, annotation output, ranker start vector) — for a fixed
start vector two runs agree — and the exact fixed point of the damped
update is unique, hence start-independent; but the returned score
vector is only the first iterate within tolerance of it, and the
resulting ranked list can depend on the random start vector (see the
counterexample). -/
theorem textrank_fixed_point_unique (n : ℕ) (T : ℕ → ℕ → ℚ)
    (hTnn : ∀ i j, 0 ≤ T i j)
    (hrow : ∀ i : Fin n, KeywordExtractor.rowSum n T i.val ≤ 1)
    (x y : Fin n → ℚ) (hx : KeywordExtractor.pr_step n T x = x)
    (hy : KeywordExtractor.pr_step n T y = y) : x = y := by
  have h := KeywordExtractor.l1dist_pr_step n T x y hTnn hrow
  rw [hx, hy] at h
  have hnn := KeywordExtractor.l1dist_nonneg n x y
  have hz : KeywordExtractor.l1dist n x y = 0 := by linarith
  funext i
  have hzi : |x i - y i| = 0 :=
    (Finset.sum_eq_zero_iff_of_nonneg
      (fun j _ => abs_nonneg (x j - y j))).1 hz i (Finset.mem_univ i)
  have := abs_eq_zero.1 hzi
  exact sub_eq_zero.1 this

/-- C2 witness: fixed-point uniqueness applied at the one-word graph
with zero transition matrix, whose fixed point is the constant 3/20. -/
theorem textrank_fixed_point_unique_witness :
    (fun _ : Fin 1 => (3/20 : ℚ)) = (fun _ : Fin 1 => (3/20 : ℚ)) :=
  textrank_fixed_point_unique 1 (fun _ _ => 0) (fun _ _ => le_refl 0)
    (fun i => by
      rw [KeywordExtractor.rowSum]
      simp)
    _ _
    (by
      funext i
      rw [KeywordExtractor.pr_step]
      simp)
    (by
      funext i
      rw [KeywordExtractor.pr_step]
      simp)

/-! Section: C5: entity labels on keywords -/

lemma rakeSelect_label_none (l : List (String × ℚ)) :
    ∀ (seen : List String) (k : ℕ),
      ∀ e ∈ KeywordExtractor.rakeSelect l seen k, e.label = none := by
  induction l with
  | nil =>
    intro seen k e he
    simp [KeywordExtractor.rakeSelect] at he
  | cons kv rest ih =>
    intro seen k e he
    obtain ⟨phrase, score⟩ := kv
    rw [KeywordExtractor.rakeSelect] at he
    split at he
    · exact ih _ _ e he
    · split at he
      · rcases List.mem_singleton.1 he with rfl
        rfl
      · rcases List.mem_cons.1 he with rfl | he
        · rfl
        · exact ih _ _ e he

lemma rake_label_none (stop : List String) (doc : List Token) (k : ℕ) :
    ∀ e ∈ KeywordExtractor.rake stop doc k, e.label = none := by
  intro e he
  simp only [KeywordExtractor.rake] at he
  split at he
  · simp at he
  · exact rakeSelect_label_none _ _ _ e he

lemma textrankList_label_none (stop : List String) (doc : List Token)
    (w k : ℕ) (s0 : ℕ → ℚ) :
    ∀ e ∈ KeywordExtractor.textrankList stop doc w k s0, e.label = none := by
  intro e he
  by_cases h : KeywordExtractor.candidate_lemmas stop doc = []
  · simp [KeywordExtractor.textrankList, h] at he
  · simp only [KeywordExtractor.textrankList, if_neg h] at he
    obtain ⟨kv, -, rfl⟩ := List.mem_map.1 he
    rfl

/-- The one-token document "Ion", annotated as a PERSON entity. -/
def ionDoc : List (List Token) :=
  [[⟨"Ion", "Ion", "PROPN", "ROOT", 0, "PERSON", true⟩]]

/-- The entity spans of `ionDoc`. -/
def ionEnts : List (String × String) := [("Ion", "PERSON")]

/-- C5 (counterexample): for the document "Ion" with recognized PERSON
entity "Ion", the returned RAKE list is exactly one entry with keyword
"ion" and label `none`, although the normalized phrase "ion" matches the
entity map; the claimed attachment property fails on this run. -/
theorem keyword_entity_label_counterexample :
    lookupAssoc (TextAnalyzer.entitiesMap ionDoc ionEnts)
        (Normalizer.norm "ion") = some "PERSON"
    ∧ ((TextAnalyzer.analyze [] "Ion" ionDoc ionEnts (fun _ => 0)).rake.map
        (fun e => (e.keyword, e.label))) = [("ion", none)]
    ∧ ¬(∀ e ∈ (TextAnalyzer.analyze [] "Ion" ionDoc ionEnts (fun _ => 0)).rake,
        ∀ lbl, lookupAssoc (TextAnalyzer.entitiesMap ionDoc ionEnts)
            (Normalizer.norm e.keyword) = some lbl → e.label = some lbl) := by
  refine ⟨by decide, by decide, ?_⟩
  intro h
  have hm : ((TextAnalyzer.analyze [] "Ion" ionDoc ionEnts (fun _ => 0)).rake.map
      (fun e => (e.keyword, e.label))) = [("ion", none)] := by decide
  rcases hL : (TextAnalyzer.analyze [] "Ion" ionDoc ionEnts (fun _ => 0)).rake
    with _ | ⟨e, rest⟩
  · rw [hL] at hm
    simp at hm
  · rw [hL] at hm
    simp only [List.map_cons] at hm
    have hkw : e.keyword = "ion" := congrArg Prod.fst (List.head_eq_of_cons_eq hm)
    have hlb : e.label = none := congrArg Prod.snd (List.head_eq_of_cons_eq hm)
    have := h e (hL ▸ List.mem_cons_self e rest) "PERSON"
      (by rw [hkw]; decide)
    rw [hlb] at this
    exact Option.noConfusion this

/-- C5 (amended): no entity label is ever attached: every entry of the
returned rake and textrank lists of `TextAnalyzer.analyze` carries label
`none` (the constructed dicts have only "keyword" and "score" keys). -/
theorem keyword_labels_none (stop : List String) (txt : String)
    (doc : List (List Token)) (ents : List (String × String)) (s0 : ℕ → ℚ) :
    (((TextAnalyzer.analyze stop txt doc ents s0).rake
      ++ (TextAnalyzer.analyze stop txt doc ents s0).textrank).all
      (fun e => e.label == none)) = true := by
  rw [List.all_eq_true]
  intro e he
  rcases List.mem_append.1 he with h | h
  · have : e.label = none := rake_label_none stop doc.join 10 e h
    simp [this]
  · have : e.label = none := textrankList_label_none stop doc.join 4 10 s0 e h
    simp [this]

end Licenta
